import Mathlib

/-!
# A shallow embedding of featureforge's FeatureMappingFlattener

This file embeds src/featureforge/flattener.py: the class
FeatureMappingFlattener with its helpers SequenceValidator and
TupleValidator, over rational numbers in place of Python floats
(every numeric operation performed by the source is placement and
comparison of values, never rounding arithmetic).

Python-level conventions of the embedding:
* A feature value is a number (int and float collapse into one
  constructor, as the source treats them identically), a string, or a
  numeric sequence (list/tuple of numbers, and float numpy arrays,
  collapse into one constructor).
* A dataset row is either a Python tuple of values or a Python list of
  values; TupleValidator accepts only tuples.
* Exceptions become an Err value threaded through Except.
-/

deriving instance DecidableEq for Except

namespace FF

/-- The sub-key part of a column key: the source uses None for a numeric
position, the categorical string itself, and an integer offset for a
fixed-vector position. -/
inductive SubKey where
  | none
  | str (s : String)
  | idx (j : Nat)
deriving DecidableEq, Repr

/-- A column key, as in the source: a (tuple position, sub-key) pair. -/
abbrev Key := Nat × SubKey

/-- The per-position kind recorded in self.schema: Use(float) for a
numeric position, basestring for a categorical one, and
SequenceValidator(size) for a fixed-length vector. -/
inductive ColKind where
  | numeric
  | categorical
  | fixedVector (size : Nat)
deriving DecidableEq, Repr

/-- One feature value.  num covers Python int and float (the source maps
both to float), str covers str/unicode, seq covers list/tuple of numbers
and float numpy arrays (the source normalizes all three to a float
array). -/
inductive Value where
  | num (x : ℚ)
  | str (s : String)
  | seq (xs : List ℚ)
deriving DecidableEq, Repr

/-- A dataset row: either a Python tuple or a Python list of the same
elements.  TupleValidator.validate is the only place the distinction
matters (isinstance(x, tuple)). -/
inductive Row where
  | tup (elems : List Value)
  | lst (elems : List Value)
deriving DecidableEq, Repr

/-- Exceptions of the source: SchemaError (re-raised as ValueError by
_wrapcall), a directly-raised ValueError, an uncaught dict KeyError, and
a failed assert.  The latter two crash the call; both are unreachable on
fitted instances, which the invariant lemmas below establish. -/
inductive Err where
  | schemaError (msg : String)
  | valueError (msg : String)
  | keyError
  | assertionError
deriving DecidableEq, Repr

/-! ## Python float() on strings

TupleValidator wraps every numeric position in Schema(Use(float)); the
schema library's Use calls float(value) and turns any exception into a
SchemaError.  float() on a string strips surrounding whitespace and
then accepts an optionally signed decimal literal — digits,
digits.digits, digits., or .digits, with an optional e/E exponent that
carries an optional sign and at least one digit — or, case
insensitively, inf, infinity or nan; on everything else it raises
ValueError. -/

/-- Numeric value of a digit string, assuming every character is a
digit (callers only pass spans of digits). -/
def digitsVal (cs : List Char) : Nat :=
  cs.foldl (fun acc c => acc * 10 + (c.toNat - 48)) 0

/-- The whitespace characters float() strips at either end (the C-locale
isspace set Python 2 uses for str). -/
def isPySpace (c : Char) : Bool :=
  c = ' ' || c = '\t' || c = '\n' || c = '\r' || c = '\x0b' || c = '\x0c'

/-- Drop leading whitespace. -/
def dropSpaces : List Char → List Char
  | [] => []
  | c :: cs => if isPySpace c then dropSpaces cs else c :: cs

/-- Strip whitespace at both ends, as float() does before parsing. -/
def stripSpaces (cs : List Char) : List Char :=
  (dropSpaces (dropSpaces cs).reverse).reverse

/-- The longest digit span at the head, and the rest. -/
def spanDigits : List Char → List Char × List Char
  | [] => ([], [])
  | c :: cs =>
    if c.isDigit then
      let p := spanDigits cs
      (c :: p.1, p.2)
    else ([], c :: cs)

/-- Case-insensitive comparison with a keyword (inf, infinity, nan). -/
def eqKeyword (cs kw : List Char) : Bool :=
  cs.map Char.toLower = kw

/-- The rational value of a finite parsed literal: sign, integral
digits, fractional digits, decimal exponent.  With a nonnegative net
scale the value is the integer mantissa times a power of ten; otherwise
the mantissa divided by a power of ten. -/
def decimalVal (neg : Bool) (ip fp : List Char) (ex : ℤ) : ℚ :=
  let mant : ℤ := digitsVal (ip ++ fp)
  let mant : ℤ := if neg then -mant else mant
  let e : ℤ := ex - fp.length
  if 0 ≤ e then ((mant * 10 ^ e.toNat : ℤ) : ℚ)
  else (mant : ℚ) / ((10 ^ (-e).toNat : ℕ) : ℚ)

/-- After the mantissa the input must end, or carry e/E, an optional
sign and a nonempty digit span reaching the end. -/
def parseExpPart (neg : Bool) (ip fp : List Char) : List Char → Option ℚ
  | [] => Option.some (decimalVal neg ip fp 0)
  | c :: r =>
    if c = 'e' || c = 'E' then
      let (eneg, r2) :=
        match r with
        | '+' :: rest => (false, rest)
        | '-' :: rest => (true, rest)
        | _ => (false, r)
      let p := spanDigits r2
      if p.1 = [] || p.2 ≠ [] then Option.none
      else
        Option.some (decimalVal neg ip fp
          (if eneg then -(digitsVal p.1 : ℤ) else (digitsVal p.1 : ℤ)))
    else Option.none

/-- The mantissa: digits, digits.digits, digits., or .digits, with at
least one digit overall, then the exponent part. -/
def parseMantissa (neg : Bool) (body : List Char) : Option ℚ :=
  let p := spanDigits body
  match p.2 with
  | '.' :: r2 =>
    let q := spanDigits r2
    if p.1 = [] && q.1 = [] then Option.none
    else parseExpPart neg p.1 q.1 q.2
  | _ => if p.1 = [] then Option.none else parseExpPart neg p.1 [] p.2

/-- Python float() applied to a string: whitespace stripped, a sign
consumed, then a decimal literal with optional exponent or, case
insensitively, inf, infinity or nan; none when float() raises
ValueError.  The non-finite spellings are accepted by float() but have
no value among the rationals this embedding uses for Python floats, so
they map to 0; no theorem below evaluates a non-finite input, and every
claim touching validation of strings at numeric positions depends only
on which strings float() accepts, never on the value of a non-finite
one. -/
def pyFloatOfString (s : String) : Option ℚ :=
  let cs := stripSpaces s.toList
  let (neg, body) :=
    match cs with
    | '+' :: rest => (false, rest)
    | '-' :: rest => (true, rest)
    | _ => (false, cs)
  if eqKeyword body ['i', 'n', 'f'] ||
      eqKeyword body ['i', 'n', 'f', 'i', 'n', 'i', 't', 'y'] ||
      eqKeyword body ['n', 'a', 'n'] then
    Option.some 0
  else parseMantissa neg body

/-- Schema(Use(float)).validate: float() succeeds on numbers and on
float-parseable strings; on anything else Use turns the exception into a
SchemaError. -/
def useFloat (v : Value) : Except Err ℚ :=
  match v with
  | .num x => .ok x
  | .str s =>
    match pyFloatOfString s with
    | Option.some x => .ok x
    | Option.none => .error (.schemaError "float() raised")
  | .seq _ => .error (.schemaError "float() raised")

/-! ## The flattener state

The source keeps self.indexes (a dict from key to column index, where
the value stored at insertion is the dict's size at that moment),
self.reverse (the keys in insertion order), self.schema (the per-position
ColKind tuple) and self.str_tuple_indexes (the categorical positions).
The construction-time sparse flag only selects which of the two
transform implementations the public methods dispatch to; it is kept
outside the state and the two implementations are modelled separately,
exactly as the source defines them. -/

structure FlattenerState where
  indexes : List (Key × Nat)
  reverse : List Key
  schema : List ColKind
  str_tuple_indexes : List Nat
deriving DecidableEq, Repr

/-- Python dict lookup on the insertion-ordered pair list (inserted keys
are unique, so first match is the match). -/
def dictLookup (d : List (Key × Nat)) (k : Key) : Option Nat :=
  match d with
  | [] => Option.none
  | (k', v) :: rest => if k' = k then Option.some v else dictLookup rest k

/-- FeatureMappingFlattener._add_column: if the key is absent, bind it to
the current dict size and append it to self.reverse. -/
def FlattenerState.add_column (st : FlattenerState) (i : Nat) (value : SubKey) : FlattenerState :=
  if (dictLookup st.indexes (i, value)).isSome then st
  else { st with
          indexes := st.indexes ++ [((i, value), st.indexes.length)],
          reverse := st.reverse ++ [(i, value)] }

/-- The `for j in range(type_.size): self._add_column(i, j)` loop of
_fit_first. -/
def addVecCols (st : FlattenerState) (i : Nat) (size : Nat) : FlattenerState :=
  (List.range size).foldl (fun s j => s.add_column i (SubKey.idx j)) st

/-! ## SequenceValidator and TupleValidator -/

/-- SequenceValidator.validate with an optional frozen size: rejects
non-sequences with SchemaError, raises ValueError on an empty sequence,
SchemaError on a length mismatch, and returns the (already numeric)
sequence otherwise. -/
def SequenceValidator.validate (size : Option Nat) (x : Value) : Except Err (List ℚ) :=
  match x with
  | .seq xs =>
    if xs.length = 0 then .error (.valueError "Expecting a non-empty sequence")
    else
      match size with
      | Option.some n =>
        if xs.length ≠ n then .error (.schemaError "sequence length mismatch")
        else .ok xs
      | Option.none => .ok xs
  | _ => .error (.schemaError "Sequence is not list, tuple or numpy array")

/-- Validation of one position by TupleValidator: each schema entry is
wrapped in Schema(...), which re-raises any exception of a wrapped
validator (including the ValueError on empty sequences) as SchemaError. -/
def validateValue (k : ColKind) (v : Value) : Except Err Value :=
  match k with
  | .numeric => (useFloat v).map Value.num
  | .categorical =>
    match v with
    | .str s => .ok (.str s)
    | _ => .error (.schemaError "should be instance of basestring")
  | .fixedVector n =>
    match SequenceValidator.validate (Option.some n) v with
    | .ok xs => .ok (.seq xs)
    | .error (.schemaError m) => .error (.schemaError m)
    | .error _ => .error (.schemaError "validator raised")

/-- The elementwise pass of TupleValidator.validate
(tuple(schema.validate(y) for y, schema in zip(x, self.tt))): Python's
zip truncates, but the caller has already checked the lengths match. -/
def validateZip : List ColKind → List Value → Except Err (List Value)
  | k :: ks, v :: vs => do
    let v' ← validateValue k v
    let vs' ← validateZip ks vs
    pure (v' :: vs')
  | _, _ => .ok []

/-- TupleValidator.validate: reject non-tuples, reject wrong lengths,
then validate elementwise against the frozen schema. -/
def TupleValidator.validate (schema : List ColKind) (x : Row) : Except Err (List Value) :=
  match x with
  | .lst _ => .error (.schemaError "Expecting tuple, got list")
  | .tup elems =>
    if elems.length ≠ schema.length then
      .error (.schemaError "Expecting a tuple of size N")
    else validateZip schema elems

/-- Validation of a whole dataset against a frozen schema, in order,
stopping at the first failure: the sequence of values produced by
_iter_valid. -/
def validateList (schema : List ColKind) : List Row → Except Err (List (List Value))
  | [] => .ok []
  | r :: rs => do
    let dp ← TupleValidator.validate schema r
    let dps ← validateList schema rs
    pure (dp :: dps)

/-! ## Fitting -/

/-- The elementwise part of Schema((int, float, basestring,
SequenceValidator())).validate(first): each element must be a number, a
string, or pass the size-unconstrained SequenceValidator; the Or
combinator reports failure as SchemaError. -/
def checkFirstElems : List Value → Except Err Unit
  | [] => .ok ()
  | v :: rest =>
    match v with
    | .num _ => checkFirstElems rest
    | .str _ => checkFirstElems rest
    | .seq xs =>
      match SequenceValidator.validate Option.none (.seq xs) with
      | .ok _ => checkFirstElems rest
      | .error _ => .error (.schemaError "did not validate")

/-- The classification loop of _fit_first over the enumerated first
tuple: numbers register the (i, None) column and record Use(float);
strings record basestring and defer their columns; sequences register
the size contiguous (i, j) columns and record SequenceValidator(size). -/
def fit_first_go : FlattenerState → Nat → List Value → FlattenerState
  | st, _, [] => st
  | st, i, v :: rest =>
    match v with
    | .num _ =>
      let s1 := st.add_column i SubKey.none
      fit_first_go { s1 with schema := s1.schema ++ [ColKind.numeric] } (i + 1) rest
    | .str _ =>
      fit_first_go { st with
                      schema := st.schema ++ [ColKind.categorical],
                      str_tuple_indexes := st.str_tuple_indexes ++ [i] } (i + 1) rest
    | .seq xs =>
      let s1 := addVecCols st i xs.length
      fit_first_go { s1 with schema := s1.schema ++ [ColKind.fixedVector xs.length] } (i + 1) rest

/-- FeatureMappingFlattener._fit_first: check the first row is a tuple
of numbers/strings/sequences, reject an empty tuple with ValueError,
then build the initial indexes/reverse/schema/str_tuple_indexes. -/
def fit_first (first : Row) : Except Err FlattenerState :=
  match first with
  | .lst _ => .error (.schemaError "should be instance of tuple")
  | .tup elems =>
    match checkFirstElems elems with
    | .error e => .error e
    | .ok _ =>
      if elems.isEmpty then .error (.valueError "Cannot fit with no empty features")
      else .ok (fit_first_go ⟨[], [], [], []⟩ 0 elems)

/-- One iteration of the _fit_step loop: register (i, datapoint[i]).
The wildcard branch is unreachable: both callers run the datapoint
through TupleValidator first, so every categorical position holds a
string. -/
def stepOne (dp : List Value) (s : FlattenerState) (i : Nat) : FlattenerState :=
  match dp.getD i (Value.str "") with
  | .str v => s.add_column i (SubKey.str v)
  | _ => s

/-- FeatureMappingFlattener._fit_step on a validated datapoint: register
the categorical value of every categorical position. -/
def fit_step (st : FlattenerState) (dp : List Value) : FlattenerState :=
  st.str_tuple_indexes.foldl (stepOne dp) st

/-- The `for datapoint in self._iter_valid(X, first=first): self._fit_step(datapoint)`
pass of _fit (the schema, which the validator reads, is never changed by
fit_step). -/
def fit_loop (st : FlattenerState) : List Row → Except Err FlattenerState
  | [] => .ok st
  | r :: rs =>
    match TupleValidator.validate st.schema r with
    | .error e => .error e
    | .ok dp => fit_loop (fit_step st dp) rs

/-- FeatureMappingFlattener._fit: take the first tuple (ValueError on an
empty dataset), build the initial state, and run the vocabulary-growth
pass over the whole dataset (first included) only when some position is
categorical. -/
def fit (X : List Row) : Except Err FlattenerState :=
  match X with
  | [] => .error (.valueError "Cannot fit with an empty dataset")
  | first :: rest =>
    match fit_first first with
    | .error e => .error e
    | .ok st0 =>
      if st0.str_tuple_indexes ≠ [] then fit_loop st0 (first :: rest)
      else .ok st0

/-! ## Dense transform -/

/-- vector[j:j+len] = data (numpy slice assignment; in every reachable
call the whole slice is in bounds, established by the invariant). -/
def setSlice : List ℚ → Nat → List ℚ → List ℚ
  | v, _, [] => v
  | v, j, x :: xs => setSlice (v.set j x) (j + 1) xs

/-- The position loop of _transform_step: floats go to the (i, None)
column, strings to their one-hot column when registered (silently
skipped otherwise), sequences to the contiguous block starting at the
(i, 0) column; a missing numeric/vector key is a KeyError and a
non-contiguous block fails the assert. -/
def transform_step_go (st : FlattenerState) : List Value → Nat → List ℚ → Except Err (List ℚ)
  | [], _, vec => .ok vec
  | .num x :: rest, i, vec =>
    match dictLookup st.indexes (i, SubKey.none) with
    | Option.some j => transform_step_go st rest (i + 1) (vec.set j x)
    | Option.none => .error .keyError
  | .str s :: rest, i, vec =>
    match dictLookup st.indexes (i, SubKey.str s) with
    | Option.some j => transform_step_go st rest (i + 1) (vec.set j 1)
    | Option.none => transform_step_go st rest (i + 1) vec
  | .seq xs :: rest, i, vec =>
    match dictLookup st.indexes (i, SubKey.idx 0) with
    | Option.some j =>
      if dictLookup st.indexes (i, SubKey.idx (xs.length - 1)) = Option.some (j + xs.length - 1)
      then transform_step_go st rest (i + 1) (setSlice vec j xs)
      else .error .assertionError
    | Option.none => .error .keyError

/-- FeatureMappingFlattener._transform_step on a validated datapoint:
fill a zero vector of the current output width. -/
def transform_step (st : FlattenerState) (dp : List Value) : Except Err (List ℚ) :=
  transform_step_go st dp 0 (List.replicate st.indexes.length 0)

/-- A dense numpy matrix: the rows plus the column count (which the
rows cannot carry when there are none: numpy.zeros((0, N))). -/
structure Dense where
  rows : List (List ℚ)
  ncols : Nat
deriving DecidableEq, Repr

/-- The row loop of _transform, accumulating rows in order.  On an empty
dataset the source returns numpy.zeros((0, N)), which is the same 0-row,
N-column matrix the accumulator yields. -/
def transform_loop (st : FlattenerState) : List Row → List (List ℚ) → Except Err Dense
  | [], acc => .ok ⟨acc, st.indexes.length⟩
  | r :: rs, acc =>
    match TupleValidator.validate st.schema r with
    | .error e => .error e
    | .ok dp =>
      match transform_step st dp with
      | .error e => .error e
      | .ok vec => transform_loop st rs (acc ++ [vec])

/-- FeatureMappingFlattener._transform. -/
def FlattenerState.transform (st : FlattenerState) (X : List Row) : Except Err Dense :=
  transform_loop st X []

/-! ## Sparse transform -/

/-- _sparse_transform_step: the generator of (column, value) pairs for
one validated datapoint, in position order. -/
def sparse_step_go (st : FlattenerState) : List Value → Nat → Except Err (List (Nat × ℚ))
  | [], _ => .ok []
  | .num x :: rest, i =>
    match dictLookup st.indexes (i, SubKey.none) with
    | Option.some j => (sparse_step_go st rest (i + 1)).map (fun ps => (j, x) :: ps)
    | Option.none => .error .keyError
  | .str s :: rest, i =>
    match dictLookup st.indexes (i, SubKey.str s) with
    | Option.some j => (sparse_step_go st rest (i + 1)).map (fun ps => (j, 1) :: ps)
    | Option.none => sparse_step_go st rest (i + 1)
  | .seq xs :: rest, i =>
    match dictLookup st.indexes (i, SubKey.idx 0) with
    | Option.some j =>
      if dictLookup st.indexes (i, SubKey.idx (xs.length - 1)) = Option.some (j + xs.length - 1)
      then (sparse_step_go st rest (i + 1)).map
             (fun ps => ((List.range xs.length).map (fun k => (j + k, xs.getD k 0))) ++ ps)
      else .error .assertionError
    | Option.none => .error .keyError

/-- _sparse_transform_step as a list of (column, value) pairs. -/
def sparse_transform_step (st : FlattenerState) (dp : List Value) : Except Err (List (Nat × ℚ)) :=
  sparse_step_go st dp 0

/-- The `if data != 0:` guard of _sparse_transform and
_sparse_fit_transform.  The source compares the accumulating
array.array object itself with the integer 0; in Python that comparison
is true whatever the array holds, so the guard never skips an entry. -/
def arrayNeZero (_data : List ℚ) : Bool := true

/-- The `for i, value in self._sparse_transform_step(datapoint)` loop
body: append value/column under the (always-true) guard. -/
def appendPairs : List ℚ → List Nat → List (Nat × ℚ) → List ℚ × List Nat
  | data, indices, [] => (data, indices)
  | data, indices, (i, v) :: ps =>
    if arrayNeZero data then appendPairs (data ++ [v]) (indices ++ [i]) ps
    else appendPairs data indices ps

/-- A scipy.sparse.csr_matrix as constructed by the source: flat value
array, matching column array, row-boundary array, and the explicit
shape. -/
structure Csr where
  data : List ℚ
  indices : List Nat
  indptr : List Nat
  shape : Nat × Nat
deriving DecidableEq, Repr

/-- What the sparse methods return: a csr matrix, or — when the data
array ends up empty — the numpy.zeros((0, N)) dense array of the
`if not data:` branch. -/
inductive SparseResult where
  | mat (c : Csr)
  | emptyDense (shape : Nat × Nat)
deriving DecidableEq, Repr

/-- The row loop of _sparse_transform, threading data/indices/indptr. -/
def sparse_loop (st : FlattenerState) :
    List Row → List ℚ → List Nat → List Nat → Except Err SparseResult
  | [], data, indices, indptr =>
    if data = [] then .ok (.emptyDense (0, st.indexes.length))
    else .ok (.mat ⟨data, indices, indptr, (indptr.length - 1, st.indexes.length)⟩)
  | r :: rs, data, indices, indptr =>
    match TupleValidator.validate st.schema r with
    | .error e => .error e
    | .ok dp =>
      match sparse_transform_step st dp with
      | .error e => .error e
      | .ok ps =>
        let di := appendPairs data indices ps
        sparse_loop st rs di.1 di.2 (indptr ++ [di.1.length])

/-- FeatureMappingFlattener._sparse_transform. -/
def FlattenerState.sparse_transform (st : FlattenerState) (X : List Row) :
    Except Err SparseResult :=
  sparse_loop st X [] [] [0]

/-! ## Fused fit_transform (dense and sparse) -/

/-- ndarray.resize((1, N)): truncate or zero-fill at the tail. -/
def resizeRow (row : List ℚ) (N : Nat) : List ℚ :=
  row.take N ++ List.replicate (N - row.length) 0

/-- The padding pass of _fit_transform.  The source walks the
accumulated (1, k) row blocks and breaks at the first block with
`len(vector) == N`; len of a (1, k) two-dimensional block is its first
dimension 1, so the loop stops immediately exactly when N = 1 and
otherwise resizes every block to width N. -/
def padRows (N : Nat) : List (List ℚ) → List (List ℚ)
  | [] => []
  | row :: rest =>
    if 1 = N then row :: rest
    else resizeRow row N :: padRows N rest

/-- The fused row loop of _fit_transform: validate, grow the vocabulary,
then materialize the row at the current width; pad at the end. -/
def ft_loop (st : FlattenerState) :
    List Row → List (List ℚ) → Except Err (FlattenerState × Dense)
  | [], acc =>
    .ok (st, ⟨padRows st.indexes.length acc, st.indexes.length⟩)
  | r :: rs, acc =>
    match TupleValidator.validate st.schema r with
    | .error e => .error e
    | .ok dp =>
      let st' := fit_step st dp
      match transform_step st' dp with
      | .error e => .error e
      | .ok vec => ft_loop st' (rs) (acc ++ [vec])

/-- FeatureMappingFlattener._fit_transform (the source mutates self and
returns the matrix; the embedding returns both). -/
def fit_transform (X : List Row) : Except Err (FlattenerState × Dense) :=
  match X with
  | [] => .error (.valueError "Cannot fit with an empty dataset")
  | first :: rest =>
    match fit_first first with
    | .error e => .error e
    | .ok st0 => ft_loop st0 (first :: rest) []

/-- The fused row loop of _sparse_fit_transform. -/
def sparse_ft_loop (st : FlattenerState) :
    List Row → List ℚ → List Nat → List Nat → Except Err (FlattenerState × SparseResult)
  | [], data, indices, indptr =>
    if data = [] then .ok (st, .emptyDense (0, st.indexes.length))
    else .ok (st, .mat ⟨data, indices, indptr, (indptr.length - 1, st.indexes.length)⟩)
  | r :: rs, data, indices, indptr =>
    match TupleValidator.validate st.schema r with
    | .error e => .error e
    | .ok dp =>
      let st' := fit_step st dp
      match sparse_transform_step st' dp with
      | .error e => .error e
      | .ok ps =>
        let di := appendPairs data indices ps
        sparse_ft_loop st' rs di.1 di.2 (indptr ++ [di.1.length])

/-- FeatureMappingFlattener._sparse_fit_transform. -/
def sparse_fit_transform (X : List Row) : Except Err (FlattenerState × SparseResult) :=
  match X with
  | [] => .error (.valueError "Cannot fit with an empty dataset")
  | first :: rest =>
    match fit_first first with
    | .error e => .error e
    | .ok st0 => sparse_ft_loop st0 (first :: rest) [] [] [0]

/-! ## Densification of the sparse result -/

/-- Add x into position j of a row (scipy sums duplicate entries when
densifying; the flattener never produces duplicates). -/
def addAt (v : List ℚ) (j : Nat) (x : ℚ) : List ℚ :=
  v.set j (v.getD j 0 + x)

/-- The dense row r of a csr matrix. -/
def csrRow (c : Csr) (r : Nat) : List ℚ :=
  let lo := c.indptr.getD r 0
  let hi := c.indptr.getD (r + 1) 0
  (List.range (hi - lo)).foldl
    (fun acc t => addAt acc (c.indices.getD (lo + t) 0) (c.data.getD (lo + t) 0))
    (List.replicate c.shape.2 0)

/-- csr_matrix.toarray(). -/
def densifyCsr (c : Csr) : Dense :=
  ⟨(List.range c.shape.1).map (csrRow c), c.shape.2⟩

/-- Densify whatever a sparse method returned (a 0-row numpy array is
already dense). -/
def SparseResult.densify : SparseResult → Dense
  | .emptyDense (r, c) => ⟨List.replicate r (List.replicate c 0), c⟩
  | .mat m => densifyCsr m

/-- The stored column indices of a sparse result (every (column, value)
entry that was materialized; a column not listed holds an implicit
zero). -/
def SparseResult.storedCols : SparseResult → List Nat
  | .emptyDense _ => []
  | .mat m => m.indices

/-- _wrapcall: SchemaError is re-raised as ValueError with the same
arguments; everything else propagates. -/
def wrapcall {α : Type} : Except Err α → Except Err α
  | .error (.schemaError m) => .error (.valueError m)
  | r => r

/-- _transform assigns no instance attribute (it only reads
self.indexes/self.schema); the embedding makes the unchanged state an
explicit output next to the matrix. -/
def FlattenerState.transformS (st : FlattenerState) (X : List Row) :
    FlattenerState × Except Err Dense :=
  (st, st.transform X)

/-- _sparse_transform likewise assigns no instance attribute. -/
def FlattenerState.sparse_transformS (st : FlattenerState) (X : List Row) :
    FlattenerState × Except Err SparseResult :=
  (st, st.sparse_transform X)

/-! ## Specification-side helpers used by the theorems -/

/-- The column keys in column order. -/
def keys (st : FlattenerState) : List Key := st.indexes.map Prod.fst

/-- The mathematical value a validated datapoint puts in the column of a
given key: the number itself for a numeric key, the offset element for a
vector key, the one-hot indicator for a categorical key. -/
def kv (dp : List Value) : Key → ℚ
  | (i, SubKey.none) =>
    match dp.get? i with
    | Option.some (.num x) => x
    | _ => 0
  | (i, SubKey.idx t) =>
    match dp.get? i with
    | Option.some (.seq xs) => xs.getD t 0
    | _ => 0
  | (i, SubKey.str s) =>
    match dp.get? i with
    | Option.some (.str s') => if s' = s then 1 else 0
    | _ => 0

/-- The dense row a validated datapoint produces at a given state. -/
def rowAt (st : FlattenerState) (dp : List Value) : List ℚ :=
  (keys st).map (kv dp)

/-- A validated value of the right shape for a column kind. -/
def vMatch : ColKind → Value → Prop
  | .numeric, .num _ => True
  | .categorical, .str _ => True
  | .fixedVector n, .seq xs => xs.length = n
  | _, _ => False

/-- A validated datapoint matches the frozen schema positionwise. -/
def dpMatches (sch : List ColKind) (dp : List Value) : Prop :=
  List.Forall₂ vMatch sch dp

/-- Every categorical value of the datapoint is registered in the
state (true right after the datapoint's own fit_step). -/
def OwnStrs (st : FlattenerState) (dp : List Value) : Prop :=
  ∀ i s, dp.get? i = Option.some (Value.str s) →
    (dictLookup st.indexes (i, SubKey.str s)).isSome

/-- The structural invariant of every state reachable from _fit_first:
dict values record insertion positions, reverse mirrors the dict keys,
keys live at positions of the matching schema kind, every numeric and
vector column exists (vector columns contiguous ascending), vector sizes
are positive, str_tuple_indexes holds exactly the categorical positions,
and the schema is non-empty. -/
structure Inv (st : FlattenerState) : Prop where
  nodup : (st.indexes.map Prod.fst).Nodup
  snd_pos : ∀ p pr, st.indexes.get? p = Option.some pr → pr.2 = p
  rev_eq : st.reverse = st.indexes.map Prod.fst
  key_kind_none : ∀ i v, ((i, SubKey.none), v) ∈ st.indexes →
    st.schema.get? i = Option.some ColKind.numeric
  key_kind_str : ∀ i s v, ((i, SubKey.str s), v) ∈ st.indexes →
    st.schema.get? i = Option.some ColKind.categorical
  key_kind_idx : ∀ i t v, ((i, SubKey.idx t), v) ∈ st.indexes →
    ∃ n, st.schema.get? i = Option.some (ColKind.fixedVector n) ∧ t < n
  numKey : ∀ i, st.schema.get? i = Option.some ColKind.numeric →
    (dictLookup st.indexes (i, SubKey.none)).isSome
  vecKey : ∀ i n, st.schema.get? i = Option.some (ColKind.fixedVector n) →
    ∃ j, ∀ t, t < n → dictLookup st.indexes (i, SubKey.idx t) = Option.some (j + t)
  vec_pos : ∀ i n, st.schema.get? i = Option.some (ColKind.fixedVector n) → 1 ≤ n
  sti_spec : ∀ i, i ∈ st.str_tuple_indexes ↔ st.schema.get? i = Option.some ColKind.categorical
  schema_ne : st.schema ≠ []

/-- The kind _fit_first infers for a value. -/
def classify : Value → ColKind
  | .num _ => .numeric
  | .str _ => .categorical
  | .seq xs => .fixedVector xs.length

/-- The columns _fit_first registers from the first tuple, in order:
one per numeric position, a contiguous ascending block per vector
position, none for categorical positions. -/
def firstTupleKeys : List ColKind → Nat → List Key
  | [], _ => []
  | ColKind.numeric :: ks, i => (i, SubKey.none) :: firstTupleKeys ks (i + 1)
  | ColKind.categorical :: ks, i => firstTupleKeys ks (i + 1)
  | ColKind.fixedVector n :: ks, i =>
    ((List.range n).map (fun t => (i, SubKey.idx t))) ++ firstTupleKeys ks (i + 1)

/-- The categorical positions, left to right. -/
def catPositions : List ColKind → Nat → List Nat
  | [], _ => []
  | ColKind.categorical :: ks, i => i :: catPositions ks (i + 1)
  | _ :: ks, i => catPositions ks (i + 1)

/-- Pair each key with its position, counting from n. -/
def enumFrom (n : Nat) : List Key → List (Key × Nat)
  | [] => []
  | k :: ks => (k, n) :: enumFrom (n + 1) ks

/-- First position of a key in a key list. -/
def keysPos : List Key → Key → Option Nat
  | [], _ => Option.none
  | k' :: ks, k => if k' = k then Option.some 0 else (keysPos ks k).map (· + 1)

/-- The categorical observations one validated datapoint contributes, in
the left-to-right position order _fit_step scans. -/
def obsKeys (sti : List Nat) (dp : List Value) : List Key :=
  sti.filterMap (fun i =>
    match dp.get? i with
    | Option.some (.str s) => Option.some (i, SubKey.str s)
    | _ => Option.none)

/-- Append a key if it has not been seen yet. -/
def addNew (acc : List Key) (k : Key) : List Key :=
  if k ∈ acc then acc else acc ++ [k]

/-- First-seen order of a key sequence. -/
def seenOrder (ks : List Key) : List Key := ks.foldl addNew []

/-- A value whose runtime type disagrees with the column kind fixed at
fit time, in the sense the validator actually enforces: at a numeric
position a float-parseable string is (via Use(float)) accepted and
coerced, so only unparseable strings count as mismatches there. -/
def valueMismatch (k : ColKind) (v : Value) : Bool :=
  match k, v with
  | .numeric, .num _ => false
  | .numeric, .str s => (pyFloatOfString s).isNone
  | .numeric, .seq _ => true
  | .categorical, .str _ => false
  | .categorical, _ => true
  | .fixedVector n, .seq xs => xs.length ≠ n
  | .fixedVector _, _ => true

/-- A tuple row the frozen schema rejects: wrong length, or some
position whose value mismatches the recorded kind. -/
def badTuple (sch : List ColKind) (r : Row) : Prop :=
  ∃ vs, r = Row.tup vs ∧
    (vs.length ≠ sch.length ∨
     ∃ i k v, sch.get? i = Option.some k ∧ vs.get? i = Option.some v ∧ valueMismatch k v = true)

/-! # Lemmas -/

/-! ## dictLookup and keysPos basics -/

theorem dictLookup_mem {d : List (Key × Nat)} {k : Key} {v : Nat}
    (h : dictLookup d k = Option.some v) : (k, v) ∈ d := by
  induction d with
  | nil => simp [dictLookup] at h
  | cons pr rest ih =>
    obtain ⟨k', v'⟩ := pr
    by_cases hk : k' = k
    · subst hk
      simp [dictLookup] at h
      subst h
      exact List.mem_cons_self _ _
    · simp [dictLookup, hk] at h
      exact List.mem_cons_of_mem _ (ih h)

theorem dictLookup_eq_none {d : List (Key × Nat)} {k : Key} :
    dictLookup d k = Option.none ↔ k ∉ d.map Prod.fst := by
  induction d with
  | nil => simp [dictLookup]
  | cons pr rest ih =>
    obtain ⟨k', v'⟩ := pr
    by_cases hk : k' = k
    · subst hk
      simp [dictLookup]
    · simp [dictLookup, hk, ih, Ne.symm hk]

theorem dictLookup_isSome_iff {d : List (Key × Nat)} {k : Key} :
    (dictLookup d k).isSome = true ↔ k ∈ d.map Prod.fst := by
  rw [← Decidable.not_iff_not, ← dictLookup_eq_none]
  cases dictLookup d k <;> simp

theorem dictLookup_append_some {d e : List (Key × Nat)} {k : Key} {v : Nat}
    (h : dictLookup d k = Option.some v) : dictLookup (d ++ e) k = Option.some v := by
  induction d with
  | nil => simp [dictLookup] at h
  | cons pr rest ih =>
    obtain ⟨k', v'⟩ := pr
    by_cases hk : k' = k
    · subst hk
      simp [dictLookup] at h ⊢
      exact h
    · simp [dictLookup, hk] at h ⊢
      exact ih h

theorem mem_dictLookup {d : List (Key × Nat)} {k : Key} {v : Nat}
    (hnd : (d.map Prod.fst).Nodup) (h : (k, v) ∈ d) : dictLookup d k = Option.some v := by
  induction d with
  | nil => simp at h
  | cons pr rest ih =>
    obtain ⟨k', v'⟩ := pr
    simp only [List.map_cons, List.nodup_cons] at hnd
    rcases List.mem_cons.mp h with h1 | h1
    · rw [Prod.mk.injEq] at h1
      obtain ⟨hk, hv⟩ := h1
      subst hk
      subst hv
      simp [dictLookup]
    · have hk : k' ≠ k := by
        intro he
        subst he
        exact hnd.1 (List.mem_map_of_mem Prod.fst h1)
      simp [dictLookup, hk]
      exact ih hnd.2 h1

/-! ## Bridges between the dict, the key list and the schema -/

theorem indexes_get?_of_lookup {st : FlattenerState} (hI : Inv st) {k : Key} {v : Nat}
    (h : dictLookup st.indexes k = Option.some v) :
    st.indexes.get? v = Option.some (k, v) := by
  obtain ⟨p, hp⟩ := List.get?_of_mem (dictLookup_mem h)
  have := hI.snd_pos p (k, v) hp
  simp at this
  subst this
  exact hp

theorem keys_get?_of_lookup {st : FlattenerState} (hI : Inv st) {k : Key} {v : Nat}
    (h : dictLookup st.indexes k = Option.some v) :
    (keys st).get? v = Option.some k := by
  have h2 := indexes_get?_of_lookup hI h
  rw [keys, List.get?_map, h2]
  rfl

theorem lookup_of_keys_get? {st : FlattenerState} (hI : Inv st) {k : Key} {c : Nat}
    (h : (keys st).get? c = Option.some k) :
    dictLookup st.indexes k = Option.some c := by
  rw [keys, List.get?_map] at h
  cases hidx : st.indexes.get? c with
  | none =>
    rw [hidx] at h
    exact absurd h (by simp)
  | some pr =>
    rw [hidx] at h
    obtain ⟨a, b⟩ := pr
    have hfst : a = k := by simpa using h
    have hsnd : b = c := hI.snd_pos c (a, b) hidx
    subst hfst
    subst hsnd
    exact mem_dictLookup hI.nodup (List.get?_mem hidx)

theorem lookup_lt_length {st : FlattenerState} (hI : Inv st) {k : Key} {v : Nat}
    (h : dictLookup st.indexes k = Option.some v) : v < (keys st).length := by
  have := keys_get?_of_lookup hI h
  exact (List.get?_eq_some.mp this).1

theorem keys_get?_inj {st : FlattenerState} (hI : Inv st) {k : Key} {c c' : Nat}
    (h : (keys st).get? c = Option.some k) (h' : (keys st).get? c' = Option.some k) :
    c = c' := by
  have hc : c < (keys st).length := (List.get?_eq_some.mp h).1
  have hnd : (keys st).Nodup := hI.nodup
  exact List.get?_inj hc hnd (h.trans h'.symm)

theorem keys_length (st : FlattenerState) : (keys st).length = st.indexes.length := by
  simp [keys]

/-! ## Forall₂ and small list helpers -/

theorem forall₂_get? {R : ColKind → Value → Prop} :
    ∀ {l₁ : List ColKind} {l₂ : List Value}, List.Forall₂ R l₁ l₂ →
      ∀ {n : Nat} {a : ColKind}, l₁.get? n = Option.some a →
        ∃ b, l₂.get? n = Option.some b ∧ R a b := by
  intro l₁ l₂ h
  induction h with
  | nil => intro n a h; exact absurd h (by simp)
  | cons hR _ ih =>
    intro n a h
    cases n with
    | zero =>
      injection h with h
      subst h
      exact ⟨_, rfl, hR⟩
    | succ m => exact ih h

theorem forall₂_get?_right {R : ColKind → Value → Prop} :
    ∀ {l₁ : List ColKind} {l₂ : List Value}, List.Forall₂ R l₁ l₂ →
      ∀ {n : Nat} {b : Value}, l₂.get? n = Option.some b →
        ∃ a, l₁.get? n = Option.some a ∧ R a b := by
  intro l₁ l₂ h
  induction h with
  | nil => intro n b h; exact absurd h (by simp)
  | cons hR _ ih =>
    intro n b h
    cases n with
    | zero =>
      injection h with h
      subst h
      exact ⟨_, rfl, hR⟩
    | succ m => exact ih h

theorem replicate_get? {a : ℚ} : ∀ (n c : Nat),
    (List.replicate n a).get? c = if c < n then Option.some a else Option.none := by
  intro n
  induction n with
  | zero => intro c; simp
  | succ m ih =>
    intro c
    cases c with
    | zero => simp [List.replicate]
    | succ c' => simpa [List.replicate, Nat.succ_lt_succ_iff] using ih c'

theorem setSlice_length : ∀ (xs v : List ℚ) (j : Nat),
    (setSlice v j xs).length = v.length := by
  intro xs
  induction xs with
  | nil => intro v j; simp [setSlice]
  | cons x xs' ih =>
    intro v j
    simp [setSlice, ih, List.length_set]

theorem setSlice_get?_lt : ∀ (xs v : List ℚ) (j c : Nat), c < j →
    (setSlice v j xs).get? c = v.get? c := by
  intro xs
  induction xs with
  | nil => intro v j c _; simp [setSlice]
  | cons x xs' ih =>
    intro v j c h
    have h1 : c < j + 1 := Nat.lt_succ_of_lt h
    rw [setSlice, ih _ _ _ h1, List.get?_set_ne _ _ (Nat.ne_of_gt h)]

theorem setSlice_get?_ge : ∀ (xs v : List ℚ) (j c : Nat), j + xs.length ≤ c →
    (setSlice v j xs).get? c = v.get? c := by
  intro xs
  induction xs with
  | nil => intro v j c _; simp [setSlice]
  | cons x xs' ih =>
    intro v j c h
    simp only [List.length_cons] at h
    have h1 : j + 1 + xs'.length ≤ c := by omega
    have h2 : j ≠ c := by omega
    rw [setSlice, ih _ _ _ h1, List.get?_set_ne _ _ h2]

theorem setSlice_get?_in : ∀ (xs v : List ℚ) (j c : Nat), j ≤ c → c < j + xs.length →
    c < v.length → (setSlice v j xs).get? c = Option.some (xs.getD (c - j) 0) := by
  intro xs
  induction xs with
  | nil =>
    intro v j c h1 h2 _
    simp only [List.length_nil] at h2
    omega
  | cons x xs' ih =>
    intro v j c h1 h2 h3
    rcases Nat.eq_or_lt_of_le h1 with he | hlt
    · subst he
      rw [setSlice, setSlice_get?_lt _ _ _ _ (Nat.lt_succ_self j)]
      rw [List.get?_set_eq]
      cases hv : v.get? j with
      | none =>
        rw [List.get?_eq_none] at hv
        omega
      | some w => simp
    · rw [setSlice]
      have h1' : j + 1 ≤ c := hlt
      have h2' : c < j + 1 + xs'.length := by
        simp only [List.length_cons] at h2
        omega
      have h3' : c < (v.set j x).length := by simpa [List.length_set] using h3
      rw [ih _ _ _ h1' h2' h3']
      have : c - j = (c - (j + 1)) + 1 := by omega
      simp [this]

/-! ## add_column, stepOne and fit_step: state evolution -/

theorem isSome_dictLookup_append {d e : List (Key × Nat)} {k : Key}
    (h : (dictLookup d k).isSome = true) : (dictLookup (d ++ e) k).isSome = true := by
  cases hv : dictLookup d k with
  | none => rw [hv] at h; exact absurd h (by simp)
  | some v => rw [dictLookup_append_some hv]; rfl

theorem add_column_schema (st : FlattenerState) (i : Nat) (sub : SubKey) :
    (st.add_column i sub).schema = st.schema := by
  unfold FlattenerState.add_column
  split <;> rfl

theorem add_column_sti (st : FlattenerState) (i : Nat) (sub : SubKey) :
    (st.add_column i sub).str_tuple_indexes = st.str_tuple_indexes := by
  unfold FlattenerState.add_column
  split <;> rfl

theorem add_column_ext (st : FlattenerState) (i : Nat) (sub : SubKey) :
    ∃ ext, (st.add_column i sub).indexes = st.indexes ++ ext ∧
      (st.add_column i sub).reverse = st.reverse ++ ext.map Prod.fst ∧
      ∀ pr ∈ ext, pr.1 = (i, sub) := by
  unfold FlattenerState.add_column
  split
  · exact ⟨[], by simp, by simp, by simp⟩
  · refine ⟨[((i, sub), st.indexes.length)], rfl, rfl, ?_⟩
    intro pr hpr
    simp at hpr
    rw [hpr]

theorem add_column_own (st : FlattenerState) (i : Nat) (sub : SubKey) :
    (dictLookup (st.add_column i sub).indexes (i, sub)).isSome = true := by
  unfold FlattenerState.add_column
  split
  · assumption
  · next hnone =>
    rw [dictLookup_isSome_iff]
    simp

theorem inv_add_column_str {st : FlattenerState} {i : Nat} {s : String} (hI : Inv st)
    (hcat : st.schema.get? i = Option.some ColKind.categorical) :
    Inv (st.add_column i (SubKey.str s)) := by
  unfold FlattenerState.add_column
  split
  · exact hI
  · next hnone =>
    have habs : (i, SubKey.str s) ∉ st.indexes.map Prod.fst := by
      rw [← dictLookup_eq_none]
      exact Option.not_isSome_iff_eq_none.mp (by simpa using hnone)
    constructor
    · rw [List.map_append]
      rw [List.nodup_append]
      refine ⟨hI.nodup, by simp, ?_⟩
      intro a ha hb
      simp at hb
      rw [hb] at ha
      exact habs ha
    · intro p pr hp
      rcases Nat.lt_trichotomy p st.indexes.length with hlt | heq | hgt
      · rw [List.get?_append hlt] at hp
        exact hI.snd_pos p pr hp
      · subst heq
        rw [List.get?_concat_length] at hp
        injection hp with hp
        rw [← hp]
      · rw [List.get?_len_le (by simp; omega)] at hp
        exact absurd hp (by simp)
    · simp [hI.rev_eq]
    · intro i' v hmem
      rcases List.mem_append.mp hmem with hm | hm
      · exact hI.key_kind_none i' v hm
      · simp at hm
    · intro i' s' v hmem
      rcases List.mem_append.mp hmem with hm | hm
      · exact hI.key_kind_str i' s' v hm
      · simp at hm
        rw [hm.1.1]
        exact hcat
    · intro i' t v hmem
      rcases List.mem_append.mp hmem with hm | hm
      · exact hI.key_kind_idx i' t v hm
      · simp at hm
    · intro i' h
      exact isSome_dictLookup_append (hI.numKey i' h)
    · intro i' n h
      obtain ⟨j, hj⟩ := hI.vecKey i' n h
      exact ⟨j, fun t ht => dictLookup_append_some (hj t ht)⟩
    · exact hI.vec_pos
    · exact hI.sti_spec
    · exact hI.schema_ne

theorem stepOne_schema (dp : List Value) (s : FlattenerState) (i : Nat) :
    (stepOne dp s i).schema = s.schema := by
  unfold stepOne
  split
  · rw [add_column_schema]
  · rfl

theorem stepOne_sti (dp : List Value) (s : FlattenerState) (i : Nat) :
    (stepOne dp s i).str_tuple_indexes = s.str_tuple_indexes := by
  unfold stepOne
  split
  · rw [add_column_sti]
  · rfl

theorem stepOne_ext (dp : List Value) (s : FlattenerState) (i : Nat) :
    ∃ ext, (stepOne dp s i).indexes = s.indexes ++ ext ∧
      (stepOne dp s i).reverse = s.reverse ++ ext.map Prod.fst ∧
      ∀ pr ∈ ext, ∃ i' s', pr.1 = (i', SubKey.str s') := by
  unfold stepOne
  split
  · next v _ =>
    obtain ⟨ext, h1, h2, h3⟩ := add_column_ext s i (SubKey.str v)
    exact ⟨ext, h1, h2, fun pr hpr => ⟨i, v, h3 pr hpr⟩⟩
  · exact ⟨[], by simp, by simp, by simp⟩

theorem inv_stepOne {dp : List Value} {s : FlattenerState} {i : Nat} (hI : Inv s)
    (hi : i ∈ s.str_tuple_indexes) : Inv (stepOne dp s i) := by
  unfold stepOne
  split
  · exact inv_add_column_str hI ((hI.sti_spec i).mp hi)
  · exact hI

theorem foldl_stepOne_schema (dp : List Value) :
    ∀ (l : List Nat) (s : FlattenerState), (l.foldl (stepOne dp) s).schema = s.schema := by
  intro l
  induction l with
  | nil => intro s; rfl
  | cons i l' ih =>
    intro s
    rw [List.foldl_cons, ih, stepOne_schema]

theorem foldl_stepOne_sti (dp : List Value) :
    ∀ (l : List Nat) (s : FlattenerState),
      (l.foldl (stepOne dp) s).str_tuple_indexes = s.str_tuple_indexes := by
  intro l
  induction l with
  | nil => intro s; rfl
  | cons i l' ih =>
    intro s
    rw [List.foldl_cons, ih, stepOne_sti]

theorem foldl_stepOne_ext (dp : List Value) :
    ∀ (l : List Nat) (s : FlattenerState),
      ∃ ext, (l.foldl (stepOne dp) s).indexes = s.indexes ++ ext ∧
        (l.foldl (stepOne dp) s).reverse = s.reverse ++ ext.map Prod.fst ∧
        ∀ pr ∈ ext, ∃ i' s', pr.1 = (i', SubKey.str s') := by
  intro l
  induction l with
  | nil => intro s; exact ⟨[], by simp, by simp, by simp⟩
  | cons i l' ih =>
    intro s
    obtain ⟨e1, h11, h12, h13⟩ := stepOne_ext dp s i
    obtain ⟨e2, h21, h22, h23⟩ := ih (stepOne dp s i)
    refine ⟨e1 ++ e2, ?_, ?_, ?_⟩
    · rw [List.foldl_cons, h21, h11, List.append_assoc]
    · rw [List.foldl_cons, h22, h12, List.map_append, List.append_assoc]
    · intro pr hpr
      rcases List.mem_append.mp hpr with hm | hm
      · exact h13 pr hm
      · exact h23 pr hm

theorem inv_foldl_stepOne {dp : List Value} :
    ∀ {l : List Nat} {s : FlattenerState}, Inv s →
      (∀ i ∈ l, i ∈ s.str_tuple_indexes) → Inv (l.foldl (stepOne dp) s) := by
  intro l
  induction l with
  | nil => intro s hI _; exact hI
  | cons i l' ih =>
    intro s hI hl
    rw [List.foldl_cons]
    have hi : i ∈ s.str_tuple_indexes := hl i (List.mem_cons_self i l')
    refine ih (inv_stepOne hI hi) ?_
    intro i' hi'
    rw [stepOne_sti]
    exact hl i' (List.mem_cons_of_mem i hi')

theorem fit_step_schema (st : FlattenerState) (dp : List Value) :
    (fit_step st dp).schema = st.schema :=
  foldl_stepOne_schema dp st.str_tuple_indexes st

theorem fit_step_sti (st : FlattenerState) (dp : List Value) :
    (fit_step st dp).str_tuple_indexes = st.str_tuple_indexes :=
  foldl_stepOne_sti dp st.str_tuple_indexes st

theorem fit_step_ext (st : FlattenerState) (dp : List Value) :
    ∃ ext, (fit_step st dp).indexes = st.indexes ++ ext ∧
      (fit_step st dp).reverse = st.reverse ++ ext.map Prod.fst ∧
      ∀ pr ∈ ext, ∃ i' s', pr.1 = (i', SubKey.str s') :=
  foldl_stepOne_ext dp st.str_tuple_indexes st

theorem inv_fit_step {st : FlattenerState} {dp : List Value} (hI : Inv st) :
    Inv (fit_step st dp) :=
  inv_foldl_stepOne hI (fun _ h => h)

theorem fit_step_id {st : FlattenerState} (dp : List Value)
    (h : st.str_tuple_indexes = []) : fit_step st dp = st := by
  unfold fit_step
  rw [h]
  rfl

/-! ## Validated datapoints match the schema -/

theorem validateValue_matches {k : ColKind} {v v' : Value}
    (h : validateValue k v = .ok v') : vMatch k v' := by
  cases k with
  | numeric =>
    unfold validateValue at h
    cases huf : useFloat v with
    | error e => rw [huf] at h; exact absurd h (by simp [Except.map])
    | ok x =>
      rw [huf] at h
      simp [Except.map] at h
      rw [← h]
      trivial
  | categorical =>
    unfold validateValue at h
    cases v <;> simp at h
    rw [← h]
    trivial
  | fixedVector n =>
    unfold validateValue at h
    cases v with
    | num x => simp [SequenceValidator.validate] at h
    | str s => simp [SequenceValidator.validate] at h
    | seq xs =>
      simp only [SequenceValidator.validate] at h
      by_cases h0 : xs.length = 0
      · simp [h0] at h
      · simp only [h0, if_false] at h
        by_cases hn : xs.length ≠ n
        · simp [hn] at h
        · simp only [hn, if_false] at h
          simp at h hn
          rw [← h]
          exact hn

theorem validateZip_matches :
    ∀ {ks : List ColKind} {vs dp : List Value}, ks.length = vs.length →
      validateZip ks vs = .ok dp → dpMatches ks dp := by
  intro ks
  induction ks with
  | nil =>
    intro vs dp hlen h
    cases vs with
    | nil =>
      simp [validateZip] at h
      subst h
      exact List.Forall₂.nil
    | cons v vs' => simp at hlen
  | cons k ks' ih =>
    intro vs dp hlen h
    cases vs with
    | nil => simp at hlen
    | cons v vs' =>
      simp only [validateZip, bind, Except.bind] at h
      cases hv : validateValue k v with
      | error e => rw [hv] at h; exact absurd h (by simp)
      | ok v' =>
        rw [hv] at h
        cases hz : validateZip ks' vs' with
        | error e => rw [hz] at h; simp at h
        | ok dp' =>
          rw [hz] at h
          simp [pure, Except.pure] at h
          rw [← h]
          simp only [List.length_cons, Nat.succ.injEq] at hlen
          exact List.Forall₂.cons (validateValue_matches hv) (ih hlen hz)

theorem validate_matches {sch : List ColKind} {r : Row} {dp : List Value}
    (h : TupleValidator.validate sch r = .ok dp) : dpMatches sch dp := by
  cases r with
  | lst es => simp [TupleValidator.validate] at h
  | tup es =>
    simp only [TupleValidator.validate] at h
    by_cases hlen : es.length ≠ sch.length
    · simp [hlen] at h
    · simp only [hlen, if_false] at h
      simp at hlen
      exact validateZip_matches hlen.symm h

theorem dpMatches_length {sch : List ColKind} {dp : List Value}
    (h : dpMatches sch dp) : sch.length = dp.length :=
  List.Forall₂.length_eq h

/-! ## Keys determine schema kinds -/

theorem mem_indexes_of_mem_keys {st : FlattenerState} {k : Key} (h : k ∈ keys st) :
    ∃ v, (k, v) ∈ st.indexes := by
  obtain ⟨pr, hpr, he⟩ := List.mem_map.mp h
  exact ⟨pr.2, by rw [← he]; exact hpr⟩

theorem schema_of_key_none {st : FlattenerState} (hI : Inv st) {i : Nat}
    (h : (i, SubKey.none) ∈ keys st) : st.schema.get? i = Option.some ColKind.numeric := by
  obtain ⟨v, hv⟩ := mem_indexes_of_mem_keys h
  exact hI.key_kind_none i v hv

theorem schema_of_key_str {st : FlattenerState} (hI : Inv st) {i : Nat} {s : String}
    (h : (i, SubKey.str s) ∈ keys st) : st.schema.get? i = Option.some ColKind.categorical := by
  obtain ⟨v, hv⟩ := mem_indexes_of_mem_keys h
  exact hI.key_kind_str i s v hv

theorem schema_of_key_idx {st : FlattenerState} (hI : Inv st) {i t : Nat}
    (h : (i, SubKey.idx t) ∈ keys st) :
    ∃ n, st.schema.get? i = Option.some (ColKind.fixedVector n) ∧ t < n := by
  obtain ⟨v, hv⟩ := mem_indexes_of_mem_keys h
  exact hI.key_kind_idx i t v hv

theorem get?_append_length {α : Type} (pre : List α) (v : α) (suf : List α) :
    (pre ++ v :: suf).get? pre.length = Option.some v := by
  induction pre with
  | nil => rfl
  | cons a pre' ih => exact ih

/-! ## Characterization of the dense row materializer -/

theorem key_fst_lt_schema {st : FlattenerState} (hI : Inv st) {k : Key} (h : k ∈ keys st) :
    k.1 < st.schema.length := by
  obtain ⟨i, sub⟩ := k
  have hex : ∃ kd, st.schema.get? i = Option.some kd := by
    cases sub with
    | none => exact ⟨_, schema_of_key_none hI h⟩
    | str s => exact ⟨_, schema_of_key_str hI h⟩
    | idx t =>
      obtain ⟨n, hn, _⟩ := schema_of_key_idx hI h
      exact ⟨_, hn⟩
  obtain ⟨kd, hkd⟩ := hex
  exact (List.get?_eq_some.mp hkd).1

theorem if_succ_eq {i n : Nat} {a : ℚ} (h : i = n → a = 0) :
    (if i < n + 1 then a else (0 : ℚ)) = if i < n then a else 0 := by
  rcases Nat.lt_trichotomy i n with hlt | heq | hgt
  · rw [if_pos (Nat.lt_succ_of_lt hlt), if_pos hlt]
  · subst heq
    rw [if_pos (Nat.lt_succ_self i), if_neg (lt_irrefl i), h rfl]
  · rw [if_neg (by omega), if_neg (by omega)]

theorem transform_step_go_char {st : FlattenerState} (hI : Inv st) {dp : List Value}
    (hm : dpMatches st.schema dp) :
    ∀ (suf pre : List Value) (vec : List ℚ),
      dp = pre ++ suf →
      vec.length = (keys st).length →
      (∀ c k, (keys st).get? c = Option.some k →
        vec.get? c = Option.some (if k.1 < pre.length then kv dp k else 0)) →
      transform_step_go st suf pre.length vec = .ok ((keys st).map (kv dp)) := by
  intro suf
  induction suf with
  | nil =>
    intro pre vec hdp hlen hinv
    show Except.ok vec = Except.ok ((keys st).map (kv dp))
    congr 1
    apply List.ext
    intro c
    cases hk : (keys st).get? c with
    | none =>
      have hclen : (keys st).length ≤ c := List.get?_eq_none.mp hk
      rw [List.get?_eq_none.mpr (by rw [hlen]; exact hclen),
          List.get?_eq_none.mpr (by simpa using hclen)]
    | some k =>
      have hkfst : k.1 < pre.length := by
        have h1 := key_fst_lt_schema hI (List.get?_mem hk)
        have h2 := dpMatches_length hm
        rw [hdp] at h2
        simp at h2
        omega
      rw [hinv c k hk, List.get?_map, hk, if_pos hkfst]
      rfl
  | cons v suf' ih =>
    intro pre vec hdp hlen hinv
    have hget : dp.get? pre.length = Option.some v := by
      rw [hdp]
      exact get?_append_length pre v suf'
    have hgetE : dp[pre.length]? = Option.some v := by
      rw [← List.get?_eq_getElem?]
      exact hget
    obtain ⟨kind, hkind, hvm⟩ := forall₂_get?_right hm hget
    have hdp' : dp = (pre ++ [v]) ++ suf' := by rw [hdp]; simp
    cases v with
    | num x =>
      have hknum : kind = ColKind.numeric := by
        cases kind with
        | numeric => rfl
        | categorical => exact hvm.elim
        | fixedVector n => exact hvm.elim
      subst hknum
      obtain ⟨j, hj⟩ := Option.isSome_iff_exists.mp (hI.numKey _ hkind)
      have hkj : (keys st).get? j = Option.some (pre.length, SubKey.none) :=
        keys_get?_of_lookup hI hj
      have hjlen : j < vec.length := by
        rw [hlen]
        exact (List.get?_eq_some.mp hkj).1
      simp only [transform_step_go, hj]
      have harg : ∀ c k, (keys st).get? c = Option.some k →
          (vec.set j x).get? c =
            Option.some (if k.1 < (pre ++ [Value.num x]).length then kv dp k else 0) := by
        intro c k hk
        simp only [List.length_append, List.length_cons, List.length_nil]
        by_cases hcj : c = j
        · subst hcj
          rw [hkj] at hk
          injection hk with hk
          subst hk
          rw [List.get?_set_eq]
          cases hv : vec.get? c with
          | none =>
            rw [List.get?_eq_none] at hv
            omega
          | some w =>
            simp only [Option.map_some]
            rw [if_pos (by simp)]
            simp [kv, hgetE]
        · rw [List.get?_set_ne _ _ (fun he => hcj he.symm), hinv c k hk]
          congr 1
          rw [if_succ_eq]
          intro heq
          obtain ⟨i', sub⟩ := k
          simp only at heq
          subst heq
          cases sub with
          | none =>
            exact absurd (keys_get?_inj hI hk hkj) hcj
          | str s =>
            have := schema_of_key_str hI (List.get?_mem hk)
            rw [hkind] at this
            exact absurd this (by simp)
          | idx t =>
            obtain ⟨n, hn, _⟩ := schema_of_key_idx hI (List.get?_mem hk)
            rw [hkind] at hn
            exact absurd hn (by simp)
      have := ih (pre ++ [Value.num x]) (vec.set j x) hdp'
        (by rw [List.length_set]; exact hlen) harg
      simpa using this
    | str s =>
      have hkcat : kind = ColKind.categorical := by
        cases kind with
        | numeric => exact hvm.elim
        | categorical => rfl
        | fixedVector n => exact hvm.elim
      subst hkcat
      cases hj : dictLookup st.indexes (pre.length, SubKey.str s) with
      | some j =>
        have hkj : (keys st).get? j = Option.some (pre.length, SubKey.str s) :=
          keys_get?_of_lookup hI hj
        have hjlen : j < vec.length := by
          rw [hlen]
          exact (List.get?_eq_some.mp hkj).1
        simp only [transform_step_go, hj]
        have harg : ∀ c k, (keys st).get? c = Option.some k →
            (vec.set j 1).get? c =
              Option.some (if k.1 < (pre ++ [Value.str s]).length then kv dp k else 0) := by
          intro c k hk
          simp only [List.length_append, List.length_cons, List.length_nil]
          by_cases hcj : c = j
          · subst hcj
            rw [hkj] at hk
            injection hk with hk
            subst hk
            rw [List.get?_set_eq]
            cases hv : vec.get? c with
            | none =>
              rw [List.get?_eq_none] at hv
              omega
            | some w =>
              simp only [Option.map_some]
              rw [if_pos (by simp)]
              simp [kv, hgetE]
          · rw [List.get?_set_ne _ _ (fun he => hcj he.symm), hinv c k hk]
            congr 1
            rw [if_succ_eq]
            intro heq
            obtain ⟨i', sub⟩ := k
            simp only at heq
            subst heq
            cases sub with
            | none =>
              have := schema_of_key_none hI (List.get?_mem hk)
              rw [hkind] at this
              exact absurd this (by simp)
            | str s' =>
              by_cases hss : s' = s
              · subst hss
                exact absurd (keys_get?_inj hI hk hkj) hcj
              · simp only [kv]
                rw [hget]
                show (if s = s' then (1 : ℚ) else 0) = 0
                rw [if_neg (fun he => hss he.symm)]
            | idx t =>
              obtain ⟨n, hn, _⟩ := schema_of_key_idx hI (List.get?_mem hk)
              rw [hkind] at hn
              exact absurd hn (by simp)
        have := ih (pre ++ [Value.str s]) (vec.set j 1) hdp'
          (by rw [List.length_set]; exact hlen) harg
        simpa using this
      | none =>
        simp only [transform_step_go, hj]
        have harg : ∀ c k, (keys st).get? c = Option.some k →
            vec.get? c =
              Option.some (if k.1 < (pre ++ [Value.str s]).length then kv dp k else 0) := by
          intro c k hk
          simp only [List.length_append, List.length_cons, List.length_nil]
          rw [hinv c k hk]
          congr 1
          rw [if_succ_eq]
          intro heq
          obtain ⟨i', sub⟩ := k
          simp only at heq
          subst heq
          cases sub with
          | none =>
            have := schema_of_key_none hI (List.get?_mem hk)
            rw [hkind] at this
            exact absurd this (by simp)
          | str s' =>
            by_cases hss : s' = s
            · subst hss
              have hmem : (pre.length, SubKey.str s') ∈ (keys st) := List.get?_mem hk
              have : (dictLookup st.indexes (pre.length, SubKey.str s')).isSome = true :=
                dictLookup_isSome_iff.mpr hmem
              rw [hj] at this
              exact absurd this (by simp)
            · simp only [kv]
              rw [hget]
              show (if s = s' then (1 : ℚ) else 0) = 0
              rw [if_neg (fun he => hss he.symm)]
          | idx t =>
            obtain ⟨n, hn, _⟩ := schema_of_key_idx hI (List.get?_mem hk)
            rw [hkind] at hn
            exact absurd hn (by simp)
        have := ih (pre ++ [Value.str s]) vec hdp' hlen harg
        simpa using this
    | seq xs =>
      obtain ⟨n, hkvec⟩ : ∃ n, kind = ColKind.fixedVector n := by
        cases kind with
        | numeric => exact hvm.elim
        | categorical => exact hvm.elim
        | fixedVector n => exact ⟨n, rfl⟩
      subst hkvec
      have hxn : xs.length = n := hvm
      have hn1 : 1 ≤ n := hI.vec_pos _ n hkind
      obtain ⟨j0, hj0⟩ := hI.vecKey _ n hkind
      have hj0' : dictLookup st.indexes (pre.length, SubKey.idx 0) = Option.some j0 := by
        have := hj0 0 (by omega)
        simpa using this
      have hlast : dictLookup st.indexes (pre.length, SubKey.idx (xs.length - 1)) =
          Option.some (j0 + xs.length - 1) := by
        rw [hxn]
        have := hj0 (n - 1) (by omega)
        rw [this]
        congr 1
        omega
      simp only [transform_step_go, hj0', hlast, if_pos rfl]
      have hcols : ∀ t, t < n →
          (keys st).get? (j0 + t) = Option.some (pre.length, SubKey.idx t) := by
        intro t ht
        exact keys_get?_of_lookup hI (hj0 t ht)
      have harg : ∀ c k, (keys st).get? c = Option.some k →
          (setSlice vec j0 xs).get? c =
            Option.some (if k.1 < (pre ++ [Value.seq xs]).length then kv dp k else 0) := by
        intro c k hk
        simp only [List.length_append, List.length_cons, List.length_nil]
        have hclen : c < vec.length := by
          rw [hlen]
          exact (List.get?_eq_some.mp hk).1
        by_cases hin : j0 ≤ c ∧ c < j0 + xs.length
        · have hjt := hcols (c - j0) (by omega)
          have : j0 + (c - j0) = c := by omega
          rw [this] at hjt
          rw [hjt] at hk
          injection hk with hk
          subst hk
          rw [setSlice_get?_in _ _ _ _ hin.1 hin.2 hclen]
          rw [if_pos (by simp)]
          simp [kv, hgetE]
        · have hout : (setSlice vec j0 xs).get? c = vec.get? c := by
            rcases Nat.lt_or_ge c j0 with h1 | h1
            · exact setSlice_get?_lt _ _ _ _ h1
            · have h2 : j0 + xs.length ≤ c := by omega
              exact setSlice_get?_ge _ _ _ _ h2
          rw [hout, hinv c k hk]
          congr 1
          rw [if_succ_eq]
          intro heq
          obtain ⟨i', sub⟩ := k
          simp only at heq
          subst heq
          cases sub with
          | none =>
            have := schema_of_key_none hI (List.get?_mem hk)
            rw [hkind] at this
            exact absurd this (by simp)
          | str s =>
            have := schema_of_key_str hI (List.get?_mem hk)
            rw [hkind] at this
            exact absurd this (by simp)
          | idx t =>
            obtain ⟨n', hn', ht⟩ := schema_of_key_idx hI (List.get?_mem hk)
            rw [hkind] at hn'
            injection hn' with hn'
            injection hn' with hn'
            subst hn'
            have := hcols t ht
            have hc : c = j0 + t := keys_get?_inj hI hk this
            exact absurd ⟨by omega, by omega⟩ hin
      have := ih (pre ++ [Value.seq xs]) (setSlice vec j0 xs) hdp'
        (by rw [setSlice_length]; exact hlen) harg
      simpa using this

theorem transform_step_char {st : FlattenerState} (hI : Inv st) {dp : List Value}
    (hm : dpMatches st.schema dp) :
    transform_step st dp = .ok (rowAt st dp) := by
  unfold transform_step rowAt
  have h0 : dp = [] ++ dp := rfl
  have := transform_step_go_char hI hm dp [] (List.replicate st.indexes.length 0) h0
    (by rw [List.length_replicate, keys_length]) ?_
  · simpa using this
  · intro c k hk
    have hc : c < st.indexes.length := by
      rw [← keys_length st]
      exact (List.get?_eq_some.mp hk).1
    rw [replicate_get? _ c, if_pos hc]
    rw [if_neg (by simp)]

/-! ## Folding fit_step over a dataset -/

theorem foldl_fit_step_schema :
    ∀ (dps : List (List Value)) (s : FlattenerState),
      (dps.foldl fit_step s).schema = s.schema := by
  intro dps
  induction dps with
  | nil => intro s; rfl
  | cons dp dps' ih =>
    intro s
    rw [List.foldl_cons, ih, fit_step_schema]

theorem foldl_fit_step_sti :
    ∀ (dps : List (List Value)) (s : FlattenerState),
      (dps.foldl fit_step s).str_tuple_indexes = s.str_tuple_indexes := by
  intro dps
  induction dps with
  | nil => intro s; rfl
  | cons dp dps' ih =>
    intro s
    rw [List.foldl_cons, ih, fit_step_sti]

theorem inv_foldl_fit_step :
    ∀ {dps : List (List Value)} {s : FlattenerState}, Inv s → Inv (dps.foldl fit_step s) := by
  intro dps
  induction dps with
  | nil => intro s hI; exact hI
  | cons dp dps' ih =>
    intro s hI
    rw [List.foldl_cons]
    exact ih (inv_fit_step hI)

theorem foldl_fit_step_ext :
    ∀ (dps : List (List Value)) (s : FlattenerState),
      ∃ ext, (dps.foldl fit_step s).indexes = s.indexes ++ ext ∧
        (dps.foldl fit_step s).reverse = s.reverse ++ ext.map Prod.fst ∧
        ∀ pr ∈ ext, ∃ i' s', pr.1 = (i', SubKey.str s') := by
  intro dps
  induction dps with
  | nil => intro s; exact ⟨[], by simp, by simp, by simp⟩
  | cons dp dps' ih =>
    intro s
    obtain ⟨e1, h11, h12, h13⟩ := fit_step_ext s dp
    obtain ⟨e2, h21, h22, h23⟩ := ih (fit_step s dp)
    refine ⟨e1 ++ e2, ?_, ?_, ?_⟩
    · rw [List.foldl_cons, h21, h11, List.append_assoc]
    · rw [List.foldl_cons, h22, h12, List.map_append, List.append_assoc]
    · intro pr hpr
      rcases List.mem_append.mp hpr with hm | hm
      · exact h13 pr hm
      · exact h23 pr hm

theorem foldl_stepOne_mono {dp : List Value} {k : Key} :
    ∀ {l : List Nat} {s : FlattenerState}, (dictLookup s.indexes k).isSome = true →
      (dictLookup ((l.foldl (stepOne dp) s)).indexes k).isSome = true := by
  intro l s h
  obtain ⟨ext, he, _, _⟩ := foldl_stepOne_ext dp l s
  rw [he]
  exact isSome_dictLookup_append h

theorem foldl_stepOne_own {dp : List Value} {i : Nat} {s0 : String} :
    ∀ {l : List Nat} {s : FlattenerState}, i ∈ l →
      dp.get? i = Option.some (Value.str s0) →
      (dictLookup ((l.foldl (stepOne dp) s)).indexes (i, SubKey.str s0)).isSome = true := by
  intro l
  induction l with
  | nil => intro s h _; simp at h
  | cons i' l' ih =>
    intro s hmem hget
    rw [List.foldl_cons]
    rcases List.mem_cons.mp hmem with he | hm
    · subst he
      apply foldl_stepOne_mono
      have hgd : dp.getD i (Value.str "") = Value.str s0 := by
        rw [List.getD_eq_get?, hget]
        rfl
      unfold stepOne
      rw [hgd]
      exact add_column_own s i (SubKey.str s0)
    · exact ih hm hget

theorem fit_step_own {st : FlattenerState} {dp : List Value} (hI : Inv st)
    (hm : dpMatches st.schema dp) : OwnStrs (fit_step st dp) dp := by
  intro i s hget
  obtain ⟨kind, hkind, hvm⟩ := forall₂_get?_right hm hget
  have hkcat : kind = ColKind.categorical := by
    cases kind with
    | numeric => exact hvm.elim
    | categorical => rfl
    | fixedVector n => exact hvm.elim
  subst hkcat
  have hmem : i ∈ st.str_tuple_indexes := (hI.sti_spec i).mpr hkind
  exact foldl_stepOne_own hmem hget

theorem foldl_fit_step_own {dp : List Value} :
    ∀ {dps : List (List Value)} {s : FlattenerState},
      OwnStrs s dp → OwnStrs (dps.foldl fit_step s) dp := by
  intro dps s h
  intro i s0 hget
  obtain ⟨ext, he, _, _⟩ := foldl_fit_step_ext dps s
  rw [he]
  exact isSome_dictLookup_append (h i s0 hget)

/-! ## Closed forms of the fit and transform loops -/

theorem except_map_error {α β : Type} (f : α → β) (e : Err) :
    Except.map f (Except.error e : Except Err α) = Except.error e := rfl

theorem except_map_ok {α β : Type} (f : α → β) (a : α) :
    Except.map f (Except.ok a : Except Err α) = Except.ok (f a) := rfl

theorem validateList_cons (sch : List ColKind) (r : Row) (rs : List Row) :
    validateList sch (r :: rs) =
      match TupleValidator.validate sch r with
      | .error e => .error e
      | .ok dp =>
        match validateList sch rs with
        | .error e => .error e
        | .ok dps => .ok (dp :: dps) := by
  show (do
    let dp ← TupleValidator.validate sch r
    let dps ← validateList sch rs
    pure (dp :: dps) : Except Err (List (List Value))) = _
  cases TupleValidator.validate sch r with
  | error e => rfl
  | ok dp =>
    cases validateList sch rs with
    | error e => rfl
    | ok dps => rfl

theorem fit_loop_closed :
    ∀ (R : List Row) (st : FlattenerState),
      fit_loop st R = (validateList st.schema R).map (fun dps => dps.foldl fit_step st) := by
  intro R
  induction R with
  | nil => intro st; rfl
  | cons r rs ih =>
    intro st
    rw [validateList_cons]
    show (match TupleValidator.validate st.schema r with
          | Except.error e => Except.error e
          | Except.ok dp => fit_loop (fit_step st dp) rs) =
      Except.map (fun dps => List.foldl fit_step st dps)
        (match TupleValidator.validate st.schema r with
         | Except.error e => Except.error e
         | Except.ok dp =>
           match validateList st.schema rs with
           | Except.error e => Except.error e
           | Except.ok dps => Except.ok (dp :: dps))
    cases hv : TupleValidator.validate st.schema r with
    | error e => rfl
    | ok dp =>
      show fit_loop (fit_step st dp) rs =
        Except.map (fun dps => List.foldl fit_step st dps)
          (match validateList st.schema rs with
           | Except.error e => Except.error e
           | Except.ok dps => Except.ok (dp :: dps))
      rw [ih (fit_step st dp), fit_step_schema]
      cases hvl : validateList st.schema rs with
      | error e => rfl
      | ok dps => rfl

theorem transform_loop_acc :
    ∀ (R : List Row) (st : FlattenerState) (acc : List (List ℚ)),
      transform_loop st R acc =
        (transform_loop st R []).map (fun m => ⟨acc ++ m.rows, m.ncols⟩) := by
  intro R
  induction R with
  | nil =>
    intro st acc
    show (Except.ok (Dense.mk acc st.indexes.length) : Except Err Dense) =
      Except.map (fun m => Dense.mk (acc ++ m.rows) m.ncols)
        (Except.ok (Dense.mk [] st.indexes.length))
    rw [except_map_ok]
    simp
  | cons r rs ih =>
    intro st acc
    show (match TupleValidator.validate st.schema r with
          | Except.error e => Except.error e
          | Except.ok dp =>
            match transform_step st dp with
            | Except.error e => Except.error e
            | Except.ok vec => transform_loop st rs (acc ++ [vec])) =
      Except.map (fun m => Dense.mk (acc ++ m.rows) m.ncols)
        (match TupleValidator.validate st.schema r with
         | Except.error e => Except.error e
         | Except.ok dp =>
           match transform_step st dp with
           | Except.error e => Except.error e
           | Except.ok vec => transform_loop st rs ([] ++ [vec]))
    cases hv : TupleValidator.validate st.schema r with
    | error e => rfl
    | ok dp =>
      show (match transform_step st dp with
            | Except.error e => Except.error e
            | Except.ok vec => transform_loop st rs (acc ++ [vec])) =
        Except.map (fun m => Dense.mk (acc ++ m.rows) m.ncols)
          (match transform_step st dp with
           | Except.error e => Except.error e
           | Except.ok vec => transform_loop st rs ([] ++ [vec]))
      cases hs : transform_step st dp with
      | error e => rfl
      | ok vec =>
        show transform_loop st rs (acc ++ [vec]) =
          Except.map (fun m => Dense.mk (acc ++ m.rows) m.ncols)
            (transform_loop st rs ([] ++ [vec]))
        rw [ih st (acc ++ [vec]), ih st ([] ++ [vec])]
        cases transform_loop st rs [] with
        | error e => rfl
        | ok m =>
          rw [except_map_ok, except_map_ok, except_map_ok]
          simp

theorem transform_loop_closed {st : FlattenerState} (hI : Inv st) :
    ∀ (R : List Row) (acc : List (List ℚ)),
      transform_loop st R acc =
        (validateList st.schema R).map
          (fun dps => ⟨acc ++ dps.map (rowAt st), st.indexes.length⟩) := by
  intro R
  induction R with
  | nil =>
    intro acc
    show (Except.ok (Dense.mk acc st.indexes.length) : Except Err Dense) =
      Except.map (fun dps => Dense.mk (acc ++ List.map (rowAt st) dps) st.indexes.length)
        (Except.ok [])
    rw [except_map_ok]
    simp
  | cons r rs ih =>
    intro acc
    rw [validateList_cons]
    show (match TupleValidator.validate st.schema r with
          | Except.error e => Except.error e
          | Except.ok dp =>
            match transform_step st dp with
            | Except.error e => Except.error e
            | Except.ok vec => transform_loop st rs (acc ++ [vec])) =
      Except.map (fun dps => Dense.mk (acc ++ List.map (rowAt st) dps) st.indexes.length)
        (match TupleValidator.validate st.schema r with
         | Except.error e => Except.error e
         | Except.ok dp =>
           match validateList st.schema rs with
           | Except.error e => Except.error e
           | Except.ok dps => Except.ok (dp :: dps))
    cases hv : TupleValidator.validate st.schema r with
    | error e => rfl
    | ok dp =>
      have hm := validate_matches hv
      show (match transform_step st dp with
            | Except.error e => Except.error e
            | Except.ok vec => transform_loop st rs (acc ++ [vec])) =
        Except.map (fun dps => Dense.mk (acc ++ List.map (rowAt st) dps) st.indexes.length)
          (match validateList st.schema rs with
           | Except.error e => Except.error e
           | Except.ok dps => Except.ok (dp :: dps))
      rw [transform_step_char hI hm]
      show transform_loop st rs (acc ++ [rowAt st dp]) =
        Except.map (fun dps => Dense.mk (acc ++ List.map (rowAt st) dps) st.indexes.length)
          (match validateList st.schema rs with
           | Except.error e => Except.error e
           | Except.ok dps => Except.ok (dp :: dps))
      rw [ih (acc ++ [rowAt st dp])]
      cases hvl : validateList st.schema rs with
      | error e => rfl
      | ok dps =>
        rw [except_map_ok, except_map_ok]
        simp

theorem FlattenerState.transform_closed {st : FlattenerState} (hI : Inv st) (X : List Row) :
    st.transform X =
      (validateList st.schema X).map
        (fun dps => ⟨dps.map (rowAt st), st.indexes.length⟩) := by
  unfold FlattenerState.transform
  rw [transform_loop_closed hI X []]
  rfl

/-! ## Padding -/

theorem padRows_one : ∀ (l : List (List ℚ)), padRows 1 l = l := by
  intro l
  cases l with
  | nil => rfl
  | cons row rest => simp [padRows]

theorem padRows_ne {N : Nat} (hN : N ≠ 1) :
    ∀ (l : List (List ℚ)), padRows N l = l.map (fun row => resizeRow row N) := by
  intro l
  induction l with
  | nil => rfl
  | cons row rest ih =>
    rw [padRows, if_neg (fun he => hN he.symm), ih]
    rfl

theorem padRows_append (N : Nat) (a b : List (List ℚ)) :
    padRows N (a ++ b) = padRows N a ++ padRows N b := by
  by_cases hN : N = 1
  · subst hN
    rw [padRows_one, padRows_one, padRows_one]
  · rw [padRows_ne hN, padRows_ne hN, padRows_ne hN, List.map_append]

/-! ## Rows at an extended state -/

theorem kv_zero_of_new {st : FlattenerState} {dp : List Value} (hown : OwnStrs st dp)
    {i : Nat} {s : String} (hnot : (i, SubKey.str s) ∉ keys st) :
    kv dp (i, SubKey.str s) = 0 := by
  simp only [kv]
  cases hget : dp.get? i with
  | none => rfl
  | some v =>
    cases v with
    | num x => rfl
    | seq xs => rfl
    | str s' =>
      show (if s' = s then (1 : ℚ) else 0) = 0
      rw [if_neg]
      intro he
      subst he
      have := hown i s' hget
      rw [dictLookup_isSome_iff] at this
      exact hnot this

theorem keys_ne {st : FlattenerState} (hI : Inv st) {dp : List Value}
    (hm : dpMatches st.schema dp) (hown : OwnStrs st dp) : keys st ≠ [] := by
  have hsne := hI.schema_ne
  obtain ⟨kind, hkind⟩ : ∃ kind, st.schema.get? 0 = Option.some kind := by
    cases hsch : st.schema with
    | nil => exact absurd hsch hsne
    | cons k ks => exact ⟨k, rfl⟩
  have hne : ∃ k, k ∈ keys st := by
    cases kind with
    | numeric =>
      obtain ⟨j, hj⟩ := Option.isSome_iff_exists.mp (hI.numKey 0 hkind)
      exact ⟨_, List.get?_mem (keys_get?_of_lookup hI hj)⟩
    | fixedVector n =>
      obtain ⟨j0, hj0⟩ := hI.vecKey 0 n hkind
      have := hj0 0 (by have := hI.vec_pos 0 n hkind; omega)
      exact ⟨_, List.get?_mem (keys_get?_of_lookup hI this)⟩
    | categorical =>
      obtain ⟨v, hv, hvm⟩ := forall₂_get? hm hkind
      have hvs : ∃ s, v = Value.str s := by
        cases v with
        | num x => exact hvm.elim
        | str s => exact ⟨s, rfl⟩
        | seq xs => exact hvm.elim
      obtain ⟨s, hs⟩ := hvs
      subst hs
      obtain ⟨j, hj⟩ := Option.isSome_iff_exists.mp (hown 0 s hv)
      exact ⟨_, List.get?_mem (keys_get?_of_lookup hI hj)⟩
  obtain ⟨k, hk⟩ := hne
  intro habs
  rw [habs] at hk
  simp at hk

theorem rowAt_extend {st sF : FlattenerState} {dp : List Value} {ext : List (Key × Nat)}
    (hIF : Inv sF) (hown : OwnStrs st dp)
    (hext : sF.indexes = st.indexes ++ ext)
    (hshape : ∀ pr ∈ ext, ∃ i' s', pr.1 = (i', SubKey.str s')) :
    resizeRow (rowAt st dp) sF.indexes.length = rowAt sF dp := by
  have hkeys : keys sF = keys st ++ ext.map Prod.fst := by
    rw [keys, keys, hext, List.map_append]
  have hzero : ∀ k ∈ ext.map Prod.fst, kv dp k = 0 := by
    intro k hk
    obtain ⟨pr, hpr, he⟩ := List.mem_map.mp hk
    obtain ⟨i', s', hs⟩ := hshape pr hpr
    rw [← he, hs]
    apply kv_zero_of_new hown
    intro hmem
    have hnd := hIF.nodup
    rw [keys] at hkeys
    rw [hext, List.map_append, List.nodup_append] at hnd
    exact hnd.2.2 hmem (hs ▸ List.mem_map_of_mem Prod.fst hpr)
  have hrows : rowAt sF dp = rowAt st dp ++ (ext.map Prod.fst).map (kv dp) := by
    rw [rowAt, rowAt, hkeys, List.map_append]
  have hlen : (rowAt st dp).length = st.indexes.length := by
    rw [rowAt, List.length_map, keys_length]
  have hlenF : sF.indexes.length = st.indexes.length + ext.length := by
    rw [hext, List.length_append]
  have hz : (ext.map Prod.fst).map (kv dp) = List.replicate ext.length 0 := by
    apply List.eq_replicate.mpr
    constructor
    · simp
    · intro b hb
      obtain ⟨k, hk, he⟩ := List.mem_map.mp hb
      rw [← he]
      exact hzero k hk
  rw [hrows, hz, resizeRow, hlen]
  congr 1
  · apply List.take_of_length_le
    omega
  · congr 1
    omega

/-! ## Equation lemmas for the loops and Except -/

theorem except_bind_ok {α β : Type} (a : α) (f : α → Except Err β) :
    (Except.ok a : Except Err α).bind f = f a := rfl

theorem except_bind_error {α β : Type} (e : Err) (f : α → Except Err β) :
    (Except.error e : Except Err α).bind f = Except.error e := rfl

theorem fit_loop_cons (st : FlattenerState) (r : Row) (rs : List Row) :
    fit_loop st (r :: rs) =
      match TupleValidator.validate st.schema r with
      | .error e => .error e
      | .ok dp => fit_loop (fit_step st dp) rs := rfl

theorem transform_loop_cons (st : FlattenerState) (r : Row) (rs : List Row)
    (acc : List (List ℚ)) :
    transform_loop st (r :: rs) acc =
      match TupleValidator.validate st.schema r with
      | .error e => .error e
      | .ok dp =>
        match transform_step st dp with
        | .error e => .error e
        | .ok vec => transform_loop st rs (acc ++ [vec]) := rfl

theorem ft_loop_cons (st : FlattenerState) (r : Row) (rs : List Row)
    (acc : List (List ℚ)) :
    ft_loop st (r :: rs) acc =
      match TupleValidator.validate st.schema r with
      | .error e => .error e
      | .ok dp =>
        match transform_step (fit_step st dp) dp with
        | .error e => .error e
        | .ok vec => ft_loop (fit_step st dp) rs (acc ++ [vec]) := rfl

/-! ## Padding a single early row to the final width -/

theorem pad_single {st' sF : FlattenerState} {dp : List Value} {ext : List (Key × Nat)}
    (hI' : Inv st') (hIF : Inv sF) (hm' : dpMatches st'.schema dp)
    (hown : OwnStrs st' dp) (hext : sF.indexes = st'.indexes ++ ext)
    (hshape : ∀ pr ∈ ext, ∃ i' s', pr.1 = (i', SubKey.str s')) :
    padRows sF.indexes.length [rowAt st' dp] = [rowAt sF dp] := by
  by_cases hN : sF.indexes.length = 1
  · rw [hN, padRows_one]
    have hne := keys_ne hI' hm' hown
    have h1 : 1 ≤ st'.indexes.length := by
      rw [← keys_length]
      exact List.length_pos.mpr hne
    have hlen : st'.indexes.length + ext.length = 1 := by
      rw [← List.length_append, ← hext]
      exact hN
    have hext0 : ext = [] := List.length_eq_zero.mp (by omega)
    subst hext0
    have hidx : sF.indexes = st'.indexes := by simpa using hext
    rw [rowAt, rowAt, keys, keys, hidx]
  · rw [padRows_ne hN]
    rw [List.map_cons, List.map_nil]
    rw [rowAt_extend hIF hown hext hshape]

/-! ## The fused dense fit_transform refines fit-then-transform -/

theorem ft_sim :
    ∀ (R : List Row) (st : FlattenerState) (acc : List (List ℚ)), Inv st →
      ft_loop st R acc =
        (fit_loop st R).bind (fun sF =>
          (transform_loop sF R []).map
            (fun m => (sF, ⟨padRows sF.indexes.length acc ++ m.rows, m.ncols⟩))) := by
  intro R
  induction R with
  | nil =>
    intro st acc hI
    show (Except.ok (st, Dense.mk (padRows st.indexes.length acc) st.indexes.length) :
        Except Err (FlattenerState × Dense)) =
      (Except.ok st).bind (fun sF =>
        (Except.ok (Dense.mk [] sF.indexes.length)).map
          (fun m => (sF, Dense.mk (padRows sF.indexes.length acc ++ m.rows) m.ncols)))
    rw [except_bind_ok, except_map_ok]
    simp
  | cons r rs ih =>
    intro st acc hI
    rw [ft_loop_cons, fit_loop_cons]
    cases hv : TupleValidator.validate st.schema r with
    | error e => rfl
    | ok dp =>
      have hm : dpMatches st.schema dp := validate_matches hv
      have hI' : Inv (fit_step st dp) := inv_fit_step hI
      have hm' : dpMatches (fit_step st dp).schema dp := by
        rw [fit_step_schema]
        exact hm
      have hown' : OwnStrs (fit_step st dp) dp := fit_step_own hI hm
      show (match transform_step (fit_step st dp) dp with
            | Except.error e => Except.error e
            | Except.ok vec => ft_loop (fit_step st dp) rs (acc ++ [vec])) =
        (fit_loop (fit_step st dp) rs).bind (fun sF =>
          (transform_loop sF (r :: rs) []).map
            (fun m => (sF, Dense.mk (padRows sF.indexes.length acc ++ m.rows) m.ncols)))
      rw [transform_step_char hI' hm']
      show ft_loop (fit_step st dp) rs (acc ++ [rowAt (fit_step st dp) dp]) = _
      rw [ih (fit_step st dp) (acc ++ [rowAt (fit_step st dp) dp]) hI']
      rw [fit_loop_closed rs (fit_step st dp)]
      cases hvl : validateList (fit_step st dp).schema rs with
      | error e => rfl
      | ok dps =>
        rw [except_map_ok, except_bind_ok, except_bind_ok]
        have hIF : Inv (dps.foldl fit_step (fit_step st dp)) :=
          inv_foldl_fit_step hI'
        have hschF : (dps.foldl fit_step (fit_step st dp)).schema = st.schema := by
          rw [foldl_fit_step_schema, fit_step_schema]
        have hmF : dpMatches (dps.foldl fit_step (fit_step st dp)).schema dp := by
          rw [hschF]
          exact hm
        obtain ⟨ext, hext, _, hshape⟩ := foldl_fit_step_ext dps (fit_step st dp)
        rw [transform_loop_cons, hschF, hv]
        show (transform_loop (dps.foldl fit_step (fit_step st dp)) rs []).map _ =
          ((match transform_step (dps.foldl fit_step (fit_step st dp)) dp with
            | Except.error e => Except.error e
            | Except.ok vec =>
              transform_loop (dps.foldl fit_step (fit_step st dp)) rs ([] ++ [vec]))).map _
        rw [transform_step_char hIF hmF]
        show _ = (transform_loop (dps.foldl fit_step (fit_step st dp)) rs
            ([] ++ [rowAt (dps.foldl fit_step (fit_step st dp)) dp])).map _
        rw [transform_loop_acc rs (dps.foldl fit_step (fit_step st dp))
          ([] ++ [rowAt (dps.foldl fit_step (fit_step st dp)) dp])]
        cases htl : transform_loop (dps.foldl fit_step (fit_step st dp)) rs [] with
        | error e => rfl
        | ok m =>
          rw [except_map_ok, except_map_ok, except_map_ok]
          have hpad := pad_single hI' hIF hm' hown' hext hshape
          congr 2
          rw [padRows_append, hpad]
          simp

/-! ## The sparse row generator -/

theorem appendPairs_closed :
    ∀ (ps : List (Nat × ℚ)) (data : List ℚ) (indices : List Nat),
      appendPairs data indices ps =
        (data ++ ps.map Prod.snd, indices ++ ps.map Prod.fst) := by
  intro ps
  induction ps with
  | nil => intro data indices; simp [appendPairs]
  | cons p ps' ih =>
    intro data indices
    obtain ⟨i, v⟩ := p
    show appendPairs (data ++ [v]) (indices ++ [i]) ps' = _
    rw [ih]
    simp

theorem sparse_step_stable {st s2 : FlattenerState} {dp : List Value}
    {ext : List (Key × Nat)} (hI : Inv st) (hm : dpMatches st.schema dp)
    (hown : OwnStrs st dp) (hext : s2.indexes = st.indexes ++ ext) :
    ∀ (suf pre : List Value), dp = pre ++ suf →
      sparse_step_go s2 suf pre.length = sparse_step_go st suf pre.length := by
  intro suf
  induction suf with
  | nil => intro pre _; rfl
  | cons v suf' ih =>
    intro pre hdp
    have hget : dp.get? pre.length = Option.some v := by
      rw [hdp]
      exact get?_append_length pre v suf'
    obtain ⟨kind, hkind, hvm⟩ := forall₂_get?_right hm hget
    have hdp' : dp = (pre ++ [v]) ++ suf' := by rw [hdp]; simp
    have hih : sparse_step_go s2 suf' (pre.length + 1) =
        sparse_step_go st suf' (pre.length + 1) := by
      have := ih (pre ++ [v]) hdp'
      simpa using this
    cases v with
    | num x =>
      have hknum : kind = ColKind.numeric := by
        cases kind with
        | numeric => rfl
        | categorical => exact hvm.elim
        | fixedVector n => exact hvm.elim
      subst hknum
      obtain ⟨j, hj⟩ := Option.isSome_iff_exists.mp (hI.numKey _ hkind)
      have hj2 : dictLookup s2.indexes (pre.length, SubKey.none) = Option.some j := by
        rw [hext]
        exact dictLookup_append_some hj
      simp only [sparse_step_go, hj, hj2, hih]
    | str s =>
      obtain ⟨j, hj⟩ := Option.isSome_iff_exists.mp (hown _ s hget)
      have hj2 : dictLookup s2.indexes (pre.length, SubKey.str s) = Option.some j := by
        rw [hext]
        exact dictLookup_append_some hj
      simp only [sparse_step_go, hj, hj2, hih]
    | seq xs =>
      obtain ⟨n, hkvec⟩ : ∃ n, kind = ColKind.fixedVector n := by
        cases kind with
        | numeric => exact hvm.elim
        | categorical => exact hvm.elim
        | fixedVector n => exact ⟨n, rfl⟩
      subst hkvec
      have hxn : xs.length = n := hvm
      have hn1 : 1 ≤ n := hI.vec_pos _ n hkind
      obtain ⟨j0, hj0⟩ := hI.vecKey _ n hkind
      have hj0' : dictLookup st.indexes (pre.length, SubKey.idx 0) = Option.some j0 := by
        have := hj0 0 (by omega)
        simpa using this
      have hlast : dictLookup st.indexes (pre.length, SubKey.idx (xs.length - 1)) =
          Option.some (j0 + xs.length - 1) := by
        rw [hxn]
        have := hj0 (n - 1) (by omega)
        rw [this]
        congr 1
        omega
      have hj02 : dictLookup s2.indexes (pre.length, SubKey.idx 0) = Option.some j0 := by
        rw [hext]
        exact dictLookup_append_some hj0'
      have hlast2 : dictLookup s2.indexes (pre.length, SubKey.idx (xs.length - 1)) =
          Option.some (j0 + xs.length - 1) := by
        rw [hext]
        exact dictLookup_append_some hlast
      simp only [sparse_step_go, hj0', hlast, hj02, hlast2, if_pos rfl, hih]

theorem sparse_step_sound {st : FlattenerState} (hI : Inv st) {dp : List Value}
    (hm : dpMatches st.schema dp) :
    ∀ (suf pre : List Value), dp = pre ++ suf →
      ∃ ps, sparse_step_go st suf pre.length = .ok ps ∧
        ∀ c v, (c, v) ∈ ps → ∃ k, (keys st).get? c = Option.some k ∧
          ∀ i s, k = (i, SubKey.str s) → dp.get? i = Option.some (Value.str s) := by
  intro suf
  induction suf with
  | nil =>
    intro pre _
    exact ⟨[], rfl, by simp⟩
  | cons v suf' ih =>
    intro pre hdp
    have hget : dp.get? pre.length = Option.some v := by
      rw [hdp]
      exact get?_append_length pre v suf'
    obtain ⟨kind, hkind, hvm⟩ := forall₂_get?_right hm hget
    have hdp' : dp = (pre ++ [v]) ++ suf' := by rw [hdp]; simp
    obtain ⟨ps', hps', hprops⟩ := ih (pre ++ [v]) hdp'
    have hps'' : sparse_step_go st suf' (pre.length + 1) = .ok ps' := by
      have h1 : (pre ++ [v]).length = pre.length + 1 := by simp
      rw [← h1]
      exact hps'
    cases v with
    | num x =>
      have hknum : kind = ColKind.numeric := by
        cases kind with
        | numeric => rfl
        | categorical => exact hvm.elim
        | fixedVector n => exact hvm.elim
      subst hknum
      obtain ⟨j, hj⟩ := Option.isSome_iff_exists.mp (hI.numKey _ hkind)
      refine ⟨(j, x) :: ps', by simp only [sparse_step_go, hj, hps'']; rfl, ?_⟩
      intro c w hc
      rcases List.mem_cons.mp hc with he | hmem
      · rw [Prod.mk.injEq] at he
        obtain ⟨he1, _⟩ := he
        subst he1
        refine ⟨(pre.length, SubKey.none), keys_get?_of_lookup hI hj, ?_⟩
        intro i s hk
        rw [Prod.mk.injEq] at hk
        exact absurd hk.2 (by simp)
      · exact hprops c w hmem
    | str s =>
      cases hj : dictLookup st.indexes (pre.length, SubKey.str s) with
      | some j =>
        refine ⟨(j, 1) :: ps', by simp only [sparse_step_go, hj, hps'']; rfl, ?_⟩
        intro c w hc
        rcases List.mem_cons.mp hc with he | hmem
        · rw [Prod.mk.injEq] at he
          obtain ⟨he1, _⟩ := he
          subst he1
          refine ⟨(pre.length, SubKey.str s), keys_get?_of_lookup hI hj, ?_⟩
          intro i s' hk
          rw [Prod.mk.injEq] at hk
          obtain ⟨hk1, hk2⟩ := hk
          subst hk1
          injection hk2 with hk2
          subst hk2
          exact hget
        · exact hprops c w hmem
      | none =>
        refine ⟨ps', ?_, fun c w hc => hprops c w hc⟩
        simp only [sparse_step_go, hj, hps'']
    | seq xs =>
      obtain ⟨n, hkvec⟩ : ∃ n, kind = ColKind.fixedVector n := by
        cases kind with
        | numeric => exact hvm.elim
        | categorical => exact hvm.elim
        | fixedVector n => exact ⟨n, rfl⟩
      subst hkvec
      have hxn : xs.length = n := hvm
      have hn1 : 1 ≤ n := hI.vec_pos _ n hkind
      obtain ⟨j0, hj0⟩ := hI.vecKey _ n hkind
      have hj0' : dictLookup st.indexes (pre.length, SubKey.idx 0) = Option.some j0 := by
        have := hj0 0 (by omega)
        simpa using this
      have hlast : dictLookup st.indexes (pre.length, SubKey.idx (xs.length - 1)) =
          Option.some (j0 + xs.length - 1) := by
        rw [hxn]
        have := hj0 (n - 1) (by omega)
        rw [this]
        congr 1
        omega
      refine ⟨((List.range xs.length).map (fun k => (j0 + k, xs.getD k 0))) ++ ps',
        by simp only [sparse_step_go, hj0', hlast, if_pos rfl, hps'']; rfl, ?_⟩
      intro c w hc
      rcases List.mem_append.mp hc with hmem | hmem
      · obtain ⟨t, ht, he⟩ := List.mem_map.mp hmem
        rw [List.mem_range] at ht
        rw [Prod.mk.injEq] at he
        obtain ⟨he1, _⟩ := he
        subst he1
        refine ⟨(pre.length, SubKey.idx t),
          keys_get?_of_lookup hI (hj0 t (by omega)), ?_⟩
        intro i s hk
        rw [Prod.mk.injEq] at hk
        exact absurd hk.2 (by simp)
      · exact hprops c w hmem

theorem sparse_transform_step_stable {st s2 : FlattenerState} {dp : List Value}
    {ext : List (Key × Nat)} (hI : Inv st) (hm : dpMatches st.schema dp)
    (hown : OwnStrs st dp) (hext : s2.indexes = st.indexes ++ ext) :
    sparse_transform_step s2 dp = sparse_transform_step st dp :=
  sparse_step_stable hI hm hown hext dp [] rfl

/-! ## The fused sparse fit_transform refines fit-then-sparse-transform -/

theorem sparse_loop_nil (st : FlattenerState) (data : List ℚ) (indices indptr : List Nat) :
    sparse_loop st [] data indices indptr =
      if data = [] then .ok (.emptyDense (0, st.indexes.length))
      else .ok (.mat ⟨data, indices, indptr, (indptr.length - 1, st.indexes.length)⟩) := rfl

theorem sparse_ft_loop_nil (st : FlattenerState) (data : List ℚ)
    (indices indptr : List Nat) :
    sparse_ft_loop st [] data indices indptr =
      if data = [] then .ok (st, .emptyDense (0, st.indexes.length))
      else .ok (st, .mat ⟨data, indices, indptr, (indptr.length - 1, st.indexes.length)⟩) := rfl

theorem sparse_loop_cons (st : FlattenerState) (r : Row) (rs : List Row)
    (data : List ℚ) (indices indptr : List Nat) :
    sparse_loop st (r :: rs) data indices indptr =
      match TupleValidator.validate st.schema r with
      | .error e => .error e
      | .ok dp =>
        match sparse_transform_step st dp with
        | .error e => .error e
        | .ok ps =>
          sparse_loop st rs (appendPairs data indices ps).1 (appendPairs data indices ps).2
            (indptr ++ [(appendPairs data indices ps).1.length]) := rfl

theorem sparse_ft_loop_cons (st : FlattenerState) (r : Row) (rs : List Row)
    (data : List ℚ) (indices indptr : List Nat) :
    sparse_ft_loop st (r :: rs) data indices indptr =
      match TupleValidator.validate st.schema r with
      | .error e => .error e
      | .ok dp =>
        match sparse_transform_step (fit_step st dp) dp with
        | .error e => .error e
        | .ok ps =>
          sparse_ft_loop (fit_step st dp) rs
            (appendPairs data indices ps).1 (appendPairs data indices ps).2
            (indptr ++ [(appendPairs data indices ps).1.length]) := rfl

theorem sp_sim :
    ∀ (R : List Row) (st : FlattenerState) (data : List ℚ) (indices indptr : List Nat),
      Inv st →
      sparse_ft_loop st R data indices indptr =
        (fit_loop st R).bind (fun sF =>
          (sparse_loop sF R data indices indptr).map (fun m => (sF, m))) := by
  intro R
  induction R with
  | nil =>
    intro st data indices indptr hI
    rw [sparse_ft_loop_nil]
    rw [show fit_loop st [] = Except.ok st from rfl, except_bind_ok, sparse_loop_nil]
    by_cases hd : data = []
    · rw [if_pos hd, if_pos hd, except_map_ok]
    · rw [if_neg hd, if_neg hd, except_map_ok]
  | cons r rs ih =>
    intro st data indices indptr hI
    rw [sparse_ft_loop_cons, fit_loop_cons]
    cases hv : TupleValidator.validate st.schema r with
    | error e => rfl
    | ok dp =>
      have hm : dpMatches st.schema dp := validate_matches hv
      have hI' : Inv (fit_step st dp) := inv_fit_step hI
      have hm' : dpMatches (fit_step st dp).schema dp := by
        rw [fit_step_schema]
        exact hm
      have hown' : OwnStrs (fit_step st dp) dp := fit_step_own hI hm
      obtain ⟨ps, hps, _⟩ := sparse_step_sound hI' hm' dp [] rfl
      have hps' : sparse_transform_step (fit_step st dp) dp = .ok ps := hps
      show (match sparse_transform_step (fit_step st dp) dp with
            | Except.error e => Except.error e
            | Except.ok ps =>
              sparse_ft_loop (fit_step st dp) rs
                (appendPairs data indices ps).1 (appendPairs data indices ps).2
                (indptr ++ [(appendPairs data indices ps).1.length])) =
        (fit_loop (fit_step st dp) rs).bind (fun sF =>
          (sparse_loop sF (r :: rs) data indices indptr).map (fun m => (sF, m)))
      rw [hps']
      show sparse_ft_loop (fit_step st dp) rs
          (appendPairs data indices ps).1 (appendPairs data indices ps).2
          (indptr ++ [(appendPairs data indices ps).1.length]) = _
      rw [ih (fit_step st dp) (appendPairs data indices ps).1 (appendPairs data indices ps).2
        (indptr ++ [(appendPairs data indices ps).1.length]) hI']
      rw [fit_loop_closed rs (fit_step st dp)]
      cases hvl : validateList (fit_step st dp).schema rs with
      | error e => rfl
      | ok dps =>
        rw [except_map_ok, except_bind_ok, except_bind_ok]
        have hIF : Inv (dps.foldl fit_step (fit_step st dp)) := inv_foldl_fit_step hI'
        have hschF : (dps.foldl fit_step (fit_step st dp)).schema = st.schema := by
          rw [foldl_fit_step_schema, fit_step_schema]
        obtain ⟨ext, hext, _, _⟩ := foldl_fit_step_ext dps (fit_step st dp)
        rw [sparse_loop_cons, hschF, hv]
        show _ = (match sparse_transform_step (dps.foldl fit_step (fit_step st dp)) dp with
                  | Except.error e => Except.error e
                  | Except.ok ps =>
                    sparse_loop (dps.foldl fit_step (fit_step st dp)) rs
                      (appendPairs data indices ps).1 (appendPairs data indices ps).2
                      (indptr ++ [(appendPairs data indices ps).1.length])).map
            (fun m => ((dps.foldl fit_step (fit_step st dp)), m))
        have hstab : sparse_transform_step (dps.foldl fit_step (fit_step st dp)) dp =
            sparse_transform_step (fit_step st dp) dp :=
          sparse_transform_step_stable hI' hm' hown' hext
        rw [hstab, hps']

/-! ## enumFrom and keysPos -/

theorem enumFrom_map_fst : ∀ (ks : List Key) (m : Nat), (enumFrom m ks).map Prod.fst = ks := by
  intro ks
  induction ks with
  | nil => intro m; rfl
  | cons k ks' ih =>
    intro m
    show k :: (enumFrom (m + 1) ks').map Prod.fst = k :: ks'
    rw [ih (m + 1)]

theorem enumFrom_get? : ∀ (ks : List Key) (m p : Nat),
    (enumFrom m ks).get? p = (ks.get? p).map (fun k => (k, m + p)) := by
  intro ks
  induction ks with
  | nil => intro m p; simp [enumFrom]
  | cons k ks' ih =>
    intro m p
    cases p with
    | zero => simp [enumFrom]
    | succ p' =>
      show (enumFrom (m + 1) ks').get? p' = _
      rw [ih (m + 1) p']
      have : m + 1 + p' = m + (p' + 1) := by omega
      rw [this]
      rfl

theorem enumFrom_append : ∀ (a b : List Key) (m : Nat),
    enumFrom m (a ++ b) = enumFrom m a ++ enumFrom (m + a.length) b := by
  intro a
  induction a with
  | nil => intro b m; simp [enumFrom]
  | cons k a' ih =>
    intro b m
    show (k, m) :: enumFrom (m + 1) (a' ++ b) = (k, m) :: (enumFrom (m + 1) a' ++ enumFrom (m + (a'.length + 1)) b)
    rw [ih b (m + 1)]
    have : m + 1 + a'.length = m + (a'.length + 1) := by omega
    rw [this]

theorem keysPos_eq_none : ∀ {ks : List Key} {k : Key}, keysPos ks k = Option.none ↔ k ∉ ks := by
  intro ks
  induction ks with
  | nil => intro k; simp [keysPos]
  | cons k' ks' ih =>
    intro k
    by_cases he : k' = k
    · subst he
      simp [keysPos]
    · simp only [keysPos, if_neg he, List.mem_cons]
      cases hp : keysPos ks' k with
      | none =>
        simp only [Option.map]
        constructor
        · intro _ hor
          rcases hor with h1 | h1
          · exact he h1.symm
          · exact (ih.mp hp) h1
        · intro _
          trivial
      | some p =>
        simp only [Option.map]
        constructor
        · intro habs
          exact absurd habs (by simp)
        · intro hnot
          have hk : k ∈ ks' := by
            by_contra hnk
            rw [← ih] at hnk
            rw [hnk] at hp
            exact absurd hp (by simp)
          exact absurd (Or.inr hk) hnot

theorem keysPos_append : ∀ (a b : List Key) (k : Key),
    keysPos (a ++ b) k =
      match keysPos a k with
      | Option.some p => Option.some p
      | Option.none => (keysPos b k).map (· + a.length) := by
  intro a
  induction a with
  | nil =>
    intro b k
    show keysPos b k = (keysPos b k).map (· + 0)
    cases keysPos b k <;> simp
  | cons k' a' ih =>
    intro b k
    by_cases he : k' = k
    · subst he
      simp [keysPos]
    · have hl : keysPos ((k' :: a') ++ b) k = (keysPos (a' ++ b) k).map (· + 1) := by
        show keysPos (k' :: (a' ++ b)) k = _
        simp [keysPos, if_neg he]
      have hr : keysPos (k' :: a') k = (keysPos a' k).map (· + 1) := by
        simp [keysPos, if_neg he]
      rw [hl, hr, ih b k]
      cases hp : keysPos a' k with
      | some p => simp
      | none =>
        simp only [Option.map]
        cases hq : keysPos b k with
        | none => rfl
        | some q =>
          simp only [Option.some.injEq, List.length_cons]
          omega

theorem keysPos_get? {ks : List Key} {k : Key} {p : Nat}
    (h : keysPos ks k = Option.some p) : ks.get? p = Option.some k := by
  induction ks generalizing p with
  | nil => simp [keysPos] at h
  | cons k' ks' ih =>
    by_cases he : k' = k
    · subst he
      simp [keysPos] at h
      subst h
      rfl
    · simp only [keysPos, if_neg he] at h
      cases hp : keysPos ks' k with
      | none => rw [hp] at h; exact absurd h (by simp)
      | some q =>
        rw [hp] at h
        simp at h
        subst h
        exact ih hp

theorem dictLookup_enumFrom : ∀ (ks : List Key) (m : Nat) (k : Key),
    dictLookup (enumFrom m ks) k = (keysPos ks k).map (· + m) := by
  intro ks
  induction ks with
  | nil => intro m k; simp [enumFrom, dictLookup, keysPos]
  | cons k' ks' ih =>
    intro m k
    by_cases he : k' = k
    · subst he
      simp [enumFrom, dictLookup, keysPos]
    · show dictLookup ((k', m) :: enumFrom (m + 1) ks') k = _
      simp only [dictLookup, keysPos, if_neg he]
      rw [ih (m + 1) k]
      cases keysPos ks' k with
      | none => simp
      | some p =>
        simp [Option.map]
        omega

/-! ## The initial key list built from the first tuple -/

theorem firstTupleKeys_fst_ge : ∀ (ks : List ColKind) (i : Nat) (k : Key),
    k ∈ firstTupleKeys ks i → i ≤ k.1 := by
  intro ks
  induction ks with
  | nil => intro i k h; simp [firstTupleKeys] at h
  | cons kd ks' ih =>
    intro i k h
    cases kd with
    | numeric =>
      rcases List.mem_cons.mp h with he | hm
      · subst he
        exact Nat.le_refl i
      · exact Nat.le_of_succ_le (ih (i + 1) k hm)
    | categorical => exact Nat.le_of_succ_le (ih (i + 1) k h)
    | fixedVector n =>
      rcases List.mem_append.mp h with hm | hm
      · obtain ⟨t, _, he⟩ := List.mem_map.mp hm
        rw [← he]
      · exact Nat.le_of_succ_le (ih (i + 1) k hm)

theorem firstTupleKeys_nodup : ∀ (ks : List ColKind) (i : Nat),
    (firstTupleKeys ks i).Nodup := by
  intro ks
  induction ks with
  | nil => intro i; simp [firstTupleKeys]
  | cons kd ks' ih =>
    intro i
    cases kd with
    | numeric =>
      rw [show firstTupleKeys (ColKind.numeric :: ks') i =
        (i, SubKey.none) :: firstTupleKeys ks' (i + 1) from rfl]
      rw [List.nodup_cons]
      refine ⟨?_, ih (i + 1)⟩
      intro hmem
      have := firstTupleKeys_fst_ge ks' (i + 1) _ hmem
      simp at this
    | categorical => exact ih (i + 1)
    | fixedVector n =>
      rw [show firstTupleKeys (ColKind.fixedVector n :: ks') i =
        ((List.range n).map (fun t => (i, SubKey.idx t))) ++ firstTupleKeys ks' (i + 1) from rfl]
      rw [List.nodup_append]
      refine ⟨?_, ih (i + 1), ?_⟩
      · apply List.Nodup.map
        · intro a b hab
          rw [Prod.mk.injEq] at hab
          injection hab.2
        · exact List.nodup_range n
      · intro k hk hk'
        obtain ⟨t, _, he⟩ := List.mem_map.mp hk
        have := firstTupleKeys_fst_ge ks' (i + 1) k hk'
        rw [← he] at this
        simp at this

theorem firstTupleKeys_none_mem : ∀ (ks : List ColKind) (i i' : Nat),
    (i', SubKey.none) ∈ firstTupleKeys ks i →
    ∃ d, i' = i + d ∧ ks.get? d = Option.some ColKind.numeric := by
  intro ks
  induction ks with
  | nil => intro i i' h; simp [firstTupleKeys] at h
  | cons kd ks' ih =>
    intro i i' h
    cases kd with
    | numeric =>
      rcases List.mem_cons.mp h with he | hm
      · rw [Prod.mk.injEq] at he
        exact ⟨0, by omega, rfl⟩
      · obtain ⟨d, hd1, hd2⟩ := ih (i + 1) i' hm
        exact ⟨d + 1, by omega, hd2⟩
    | categorical =>
      obtain ⟨d, hd1, hd2⟩ := ih (i + 1) i' h
      exact ⟨d + 1, by omega, hd2⟩
    | fixedVector n =>
      rcases List.mem_append.mp h with hm | hm
      · obtain ⟨t, _, he⟩ := List.mem_map.mp hm
        rw [Prod.mk.injEq] at he
        exact absurd he.2 (by simp)
      · obtain ⟨d, hd1, hd2⟩ := ih (i + 1) i' hm
        exact ⟨d + 1, by omega, hd2⟩

theorem firstTupleKeys_str_mem : ∀ (ks : List ColKind) (i i' : Nat) (s : String),
    (i', SubKey.str s) ∈ firstTupleKeys ks i → False := by
  intro ks
  induction ks with
  | nil => intro i i' s h; simp [firstTupleKeys] at h
  | cons kd ks' ih =>
    intro i i' s h
    cases kd with
    | numeric =>
      rcases List.mem_cons.mp h with he | hm
      · rw [Prod.mk.injEq] at he
        exact absurd he.2 (by simp)
      · exact ih (i + 1) i' s hm
    | categorical => exact ih (i + 1) i' s h
    | fixedVector n =>
      rcases List.mem_append.mp h with hm | hm
      · obtain ⟨t, _, he⟩ := List.mem_map.mp hm
        rw [Prod.mk.injEq] at he
        exact absurd he.2 (by simp)
      · exact ih (i + 1) i' s hm

theorem firstTupleKeys_idx_mem : ∀ (ks : List ColKind) (i i' t : Nat),
    (i', SubKey.idx t) ∈ firstTupleKeys ks i →
    ∃ d n, i' = i + d ∧ ks.get? d = Option.some (ColKind.fixedVector n) ∧ t < n := by
  intro ks
  induction ks with
  | nil => intro i i' t h; simp [firstTupleKeys] at h
  | cons kd ks' ih =>
    intro i i' t h
    cases kd with
    | numeric =>
      rcases List.mem_cons.mp h with he | hm
      · rw [Prod.mk.injEq] at he
        exact absurd he.2 (by simp)
      · obtain ⟨d, n, hd1, hd2, hd3⟩ := ih (i + 1) i' t hm
        exact ⟨d + 1, n, by omega, hd2, hd3⟩
    | categorical =>
      obtain ⟨d, n, hd1, hd2, hd3⟩ := ih (i + 1) i' t h
      exact ⟨d + 1, n, by omega, hd2, hd3⟩
    | fixedVector n =>
      rcases List.mem_append.mp h with hm | hm
      · obtain ⟨u, hu, he⟩ := List.mem_map.mp hm
        rw [List.mem_range] at hu
        rw [Prod.mk.injEq] at he
        obtain ⟨he1, he2⟩ := he
        injection he2 with he2
        exact ⟨0, n, by omega, rfl, by omega⟩
      · obtain ⟨d, n', hd1, hd2, hd3⟩ := ih (i + 1) i' t hm
        exact ⟨d + 1, n', by omega, hd2, hd3⟩

theorem keysPos_idx_block : ∀ (n t i : Nat), t < n →
    keysPos ((List.range n).map (fun u => (i, SubKey.idx u))) (i, SubKey.idx t) =
      Option.some t := by
  intro n
  induction n with
  | zero => intro t i ht; omega
  | succ m ih =>
    intro t i ht
    rw [List.range_succ, List.map_append, keysPos_append]
    by_cases htm : t < m
    · rw [ih t i htm]
    · have hte : t = m := by omega
      have hmiss : keysPos ((List.range m).map (fun u => (i, SubKey.idx u)))
          (i, SubKey.idx t) = Option.none := by
        rw [keysPos_eq_none]
        intro hmem
        obtain ⟨u, hu, he⟩ := List.mem_map.mp hmem
        rw [List.mem_range] at hu
        rw [Prod.mk.injEq] at he
        injection he.2 with he2
        omega
      rw [hmiss]
      show (keysPos [(i, SubKey.idx m)] (i, SubKey.idx t)).map _ = _
      rw [show keysPos [(i, SubKey.idx m)] (i, SubKey.idx t) = Option.some 0 from by
        rw [hte]
        simp [keysPos]]
      simp only [Option.map, List.length_map, List.length_range]
      rw [hte]
      simp

theorem firstTupleKeys_numPos : ∀ (ks : List ColKind) (d i : Nat),
    ks.get? d = Option.some ColKind.numeric →
    ∃ p, keysPos (firstTupleKeys ks i) (i + d, SubKey.none) = Option.some p := by
  intro ks
  induction ks with
  | nil => intro d i h; simp at h
  | cons kd ks' ih =>
    intro d i h
    cases d with
    | zero =>
      injection h with h
      subst h
      refine ⟨0, ?_⟩
      show keysPos ((i, SubKey.none) :: firstTupleKeys ks' (i + 1)) (i + 0, SubKey.none) = _
      simp [keysPos]
    | succ d' =>
      obtain ⟨p, hp⟩ := ih d' (i + 1) h
      have harith : i + 1 + d' = i + (d' + 1) := by omega
      rw [harith] at hp
      cases kd with
      | numeric =>
        refine ⟨p + 1, ?_⟩
        show keysPos ((i, SubKey.none) :: firstTupleKeys ks' (i + 1)) (i + (d' + 1), SubKey.none) = _
        simp only [keysPos]
        rw [if_neg (by
          intro he
          rw [Prod.mk.injEq] at he
          omega)]
        rw [hp]
        rfl
      | categorical =>
        exact ⟨p, hp⟩
      | fixedVector n =>
        refine ⟨p + n, ?_⟩
        show keysPos (((List.range n).map (fun t => (i, SubKey.idx t))) ++
          firstTupleKeys ks' (i + 1)) (i + (d' + 1), SubKey.none) = _
        rw [keysPos_append]
        have hmiss : keysPos ((List.range n).map (fun t => (i, SubKey.idx t)))
            (i + (d' + 1), SubKey.none) = Option.none := by
          rw [keysPos_eq_none]
          intro hmem
          obtain ⟨t, _, he⟩ := List.mem_map.mp hmem
          rw [Prod.mk.injEq] at he
          exact absurd he.2 (by simp)
        rw [hmiss, hp]
        simp

theorem firstTupleKeys_vecPos : ∀ (ks : List ColKind) (d i n : Nat),
    ks.get? d = Option.some (ColKind.fixedVector n) →
    ∃ p, ∀ t, t < n →
      keysPos (firstTupleKeys ks i) (i + d, SubKey.idx t) = Option.some (p + t) := by
  intro ks
  induction ks with
  | nil => intro d i n h; simp at h
  | cons kd ks' ih =>
    intro d i n h
    cases d with
    | zero =>
      injection h with h
      subst h
      refine ⟨0, ?_⟩
      intro t ht
      show keysPos (((List.range n).map (fun u => (i, SubKey.idx u))) ++
        firstTupleKeys ks' (i + 1)) (i + 0, SubKey.idx t) = _
      rw [keysPos_append]
      rw [show i + 0 = i from rfl]
      rw [keysPos_idx_block n t i ht]
      simp
    | succ d' =>
      obtain ⟨p, hp⟩ := ih d' (i + 1) n h
      have harith : i + 1 + d' = i + (d' + 1) := by omega
      rw [harith] at hp
      cases kd with
      | numeric =>
        refine ⟨p + 1, ?_⟩
        intro t ht
        show keysPos ((i, SubKey.none) :: firstTupleKeys ks' (i + 1))
          (i + (d' + 1), SubKey.idx t) = _
        simp only [keysPos]
        rw [if_neg (by
          intro he
          rw [Prod.mk.injEq] at he
          omega)]
        rw [hp t ht]
        show Option.some (p + t + 1) = Option.some (p + 1 + t)
        congr 1
        omega
      | categorical =>
        refine ⟨p, ?_⟩
        intro t ht
        exact hp t ht
      | fixedVector n' =>
        refine ⟨p + n', ?_⟩
        intro t ht
        show keysPos (((List.range n').map (fun u => (i, SubKey.idx u))) ++
          firstTupleKeys ks' (i + 1)) (i + (d' + 1), SubKey.idx t) = _
        rw [keysPos_append]
        have hmiss : keysPos ((List.range n').map (fun u => (i, SubKey.idx u)))
            (i + (d' + 1), SubKey.idx t) = Option.none := by
          rw [keysPos_eq_none]
          intro hmem
          obtain ⟨u, _, he⟩ := List.mem_map.mp hmem
          rw [Prod.mk.injEq] at he
          omega
        rw [hmiss, hp t ht]
        show Option.some (p + t + ((List.range n').map (fun u => (i, SubKey.idx u))).length) =
          Option.some (p + n' + t)
        simp only [List.length_map, List.length_range, Option.some.injEq]
        omega

theorem catPositions_mem : ∀ (ks : List ColKind) (i i' : Nat),
    i' ∈ catPositions ks i ↔
      ∃ d, ks.get? d = Option.some ColKind.categorical ∧ i' = i + d := by
  intro ks
  induction ks with
  | nil =>
    intro i i'
    simp [catPositions]
  | cons kd ks' ih =>
    intro i i'
    cases kd with
    | numeric =>
      rw [show catPositions (ColKind.numeric :: ks') i = catPositions ks' (i + 1) from rfl]
      rw [ih (i + 1) i']
      constructor
      · intro ⟨d, hd1, hd2⟩
        exact ⟨d + 1, hd1, by omega⟩
      · intro ⟨d, hd1, hd2⟩
        cases d with
        | zero => simp at hd1
        | succ d' => exact ⟨d', hd1, by omega⟩
    | categorical =>
      rw [show catPositions (ColKind.categorical :: ks') i = i :: catPositions ks' (i + 1) from rfl]
      rw [List.mem_cons, ih (i + 1) i']
      constructor
      · intro hor
        rcases hor with he | ⟨d, hd1, hd2⟩
        · exact ⟨0, rfl, by omega⟩
        · exact ⟨d + 1, hd1, by omega⟩
      · intro ⟨d, hd1, hd2⟩
        cases d with
        | zero => exact Or.inl (by omega)
        | succ d' => exact Or.inr ⟨d', hd1, by omega⟩
    | fixedVector n =>
      rw [show catPositions (ColKind.fixedVector n :: ks') i = catPositions ks' (i + 1) from rfl]
      rw [ih (i + 1) i']
      constructor
      · intro ⟨d, hd1, hd2⟩
        exact ⟨d + 1, hd1, by omega⟩
      · intro ⟨d, hd1, hd2⟩
        cases d with
        | zero => simp at hd1
        | succ d' => exact ⟨d', hd1, by omega⟩

/-! ## Closed form of _fit_first -/

theorem enumFrom_length : ∀ (ks : List Key) (m : Nat), (enumFrom m ks).length = ks.length := by
  intro ks
  induction ks with
  | nil => intro m; rfl
  | cons k ks' ih =>
    intro m
    show (enumFrom (m + 1) ks').length + 1 = ks'.length + 1
    rw [ih (m + 1)]

theorem add_column_fresh {st : FlattenerState} {i : Nat} {sub : SubKey}
    (h : (i, sub) ∉ st.indexes.map Prod.fst) :
    st.add_column i sub =
      { st with indexes := st.indexes ++ [((i, sub), st.indexes.length)],
                reverse := st.reverse ++ [(i, sub)] } := by
  unfold FlattenerState.add_column
  rw [if_neg]
  rw [← dictLookup_eq_none] at h
  rw [h]
  simp

theorem addVecCols_closed : ∀ (n : Nat) (st : FlattenerState) (i : Nat),
    (∀ pr ∈ st.indexes, pr.1.1 < i) →
    addVecCols st i n =
      { st with
          indexes := st.indexes ++
            enumFrom st.indexes.length ((List.range n).map (fun t => (i, SubKey.idx t))),
          reverse := st.reverse ++ (List.range n).map (fun t => (i, SubKey.idx t)) } := by
  intro n
  induction n with
  | zero =>
    intro st i _
    show st = _
    simp [enumFrom]
  | succ m ih =>
    intro st i hb
    show (List.range (m + 1)).foldl (fun s j => s.add_column i (SubKey.idx j)) st = _
    rw [List.range_succ, List.foldl_append]
    have hm := ih st i hb
    rw [show (List.range m).foldl (fun s j => s.add_column i (SubKey.idx j)) st =
      addVecCols st i m from rfl]
    rw [hm]
    rw [List.foldl_cons, List.foldl_nil]
    rw [add_column_fresh (by
      simp only [List.map_append, enumFrom_map_fst]
      intro hmem
      rcases List.mem_append.mp hmem with h1 | h1
      · obtain ⟨pr, hpr, he⟩ := List.mem_map.mp h1
        have := hb pr hpr
        rw [he] at this
        simp at this
      · obtain ⟨t, ht, he⟩ := List.mem_map.mp h1
        rw [List.mem_range] at ht
        rw [Prod.mk.injEq] at he
        injection he.2 with he2
        omega)]
    rw [FlattenerState.mk.injEq]
    refine ⟨?_, ?_, rfl, rfl⟩
    · rw [List.map_append, enumFrom_append]
      simp [enumFrom, enumFrom_length, List.append_assoc]
    · rw [List.map_append]
      simp

theorem fit_first_go_closed : ∀ (vs : List Value) (st : FlattenerState) (i : Nat),
    (∀ pr ∈ st.indexes, pr.1.1 < i) →
    fit_first_go st i vs =
      { indexes := st.indexes ++
          enumFrom st.indexes.length (firstTupleKeys (vs.map classify) i),
        reverse := st.reverse ++ firstTupleKeys (vs.map classify) i,
        schema := st.schema ++ vs.map classify,
        str_tuple_indexes := st.str_tuple_indexes ++ catPositions (vs.map classify) i } := by
  intro vs
  induction vs with
  | nil =>
    intro st i _
    show st = _
    simp [firstTupleKeys, catPositions, enumFrom]
  | cons v vs' ih =>
    intro st i hb
    cases v with
    | num x =>
      have hfresh : (i, SubKey.none) ∉ st.indexes.map Prod.fst := by
        intro hmem
        obtain ⟨pr, hpr, he⟩ := List.mem_map.mp hmem
        have := hb pr hpr
        rw [he] at this
        simp at this
      show fit_first_go
        { st.add_column i SubKey.none with
            schema := (st.add_column i SubKey.none).schema ++ [ColKind.numeric] } (i + 1) vs' = _
      rw [add_column_fresh hfresh]
      rw [ih _ (i + 1) (by
        intro pr hpr
        rcases List.mem_append.mp hpr with h1 | h1
        · exact Nat.lt_succ_of_lt (hb pr h1)
        · simp at h1
          rw [h1]
          simp)]
      simp only [List.map_cons]
      rw [show classify (Value.num x) = ColKind.numeric from rfl]
      rw [show firstTupleKeys (ColKind.numeric :: vs'.map classify) i =
        (i, SubKey.none) :: firstTupleKeys (vs'.map classify) (i + 1) from rfl]
      rw [show catPositions (ColKind.numeric :: vs'.map classify) i =
        catPositions (vs'.map classify) (i + 1) from rfl]
      rw [FlattenerState.mk.injEq]
      refine ⟨?_, ?_, ?_, rfl⟩
      · rw [show enumFrom st.indexes.length
          ((i, SubKey.none) :: firstTupleKeys (vs'.map classify) (i + 1)) =
          ((i, SubKey.none), st.indexes.length) ::
            enumFrom (st.indexes.length + 1) (firstTupleKeys (vs'.map classify) (i + 1)) from rfl]
        simp [List.length_append]
      · simp
      · simp
    | str s =>
      show fit_first_go
        { st with schema := st.schema ++ [ColKind.categorical],
                  str_tuple_indexes := st.str_tuple_indexes ++ [i] } (i + 1) vs' = _
      rw [ih _ (i + 1) (by
        intro pr hpr
        exact Nat.lt_succ_of_lt (hb pr hpr))]
      simp only [List.map_cons]
      rw [show classify (Value.str s) = ColKind.categorical from rfl]
      rw [show firstTupleKeys (ColKind.categorical :: vs'.map classify) i =
        firstTupleKeys (vs'.map classify) (i + 1) from rfl]
      rw [show catPositions (ColKind.categorical :: vs'.map classify) i =
        i :: catPositions (vs'.map classify) (i + 1) from rfl]
      rw [FlattenerState.mk.injEq]
      refine ⟨rfl, rfl, ?_, ?_⟩
      · simp
      · simp
    | seq xs =>
      have hbv : ∀ pr ∈ st.indexes, pr.1.1 < i := hb
      show fit_first_go
        { addVecCols st i xs.length with
            schema := (addVecCols st i xs.length).schema ++ [ColKind.fixedVector xs.length] }
        (i + 1) vs' = _
      rw [addVecCols_closed xs.length st i hbv]
      rw [ih _ (i + 1) (by
        intro pr hpr
        rcases List.mem_append.mp hpr with h1 | h1
        · exact Nat.lt_succ_of_lt (hb pr h1)
        · obtain ⟨p, hp⟩ := List.get?_of_mem h1
          rw [enumFrom_get?] at hp
          cases hq : ((List.range xs.length).map (fun t => (i, SubKey.idx t))).get? p with
          | none => rw [hq] at hp; exact absurd hp (by simp)
          | some k =>
            rw [hq] at hp
            simp at hp
            have hkmem := List.get?_mem hq
            obtain ⟨t, _, he⟩ := List.mem_map.mp hkmem
            rw [← hp, ← he]
            simp)]
      simp only [List.map_cons]
      rw [show classify (Value.seq xs) = ColKind.fixedVector xs.length from rfl]
      rw [show firstTupleKeys (ColKind.fixedVector xs.length :: vs'.map classify) i =
        ((List.range xs.length).map (fun t => (i, SubKey.idx t))) ++
          firstTupleKeys (vs'.map classify) (i + 1) from rfl]
      rw [show catPositions (ColKind.fixedVector xs.length :: vs'.map classify) i =
        catPositions (vs'.map classify) (i + 1) from rfl]
      rw [FlattenerState.mk.injEq]
      refine ⟨?_, ?_, ?_, rfl⟩
      · rw [enumFrom_append]
        simp [List.length_append, List.append_assoc, enumFrom_length]
      · simp
      · simp

/-! ## fit_first produces the invariant -/

theorem checkFirst_cons_seq {xs : List ℚ} {rest : List Value}
    (h : checkFirstElems (Value.seq xs :: rest) = .ok ()) :
    xs.length ≠ 0 ∧ checkFirstElems rest = .ok () := by
  by_cases h0 : xs.length = 0
  · have hv : SequenceValidator.validate Option.none (Value.seq xs) =
        .error (.valueError "Expecting a non-empty sequence") := by
      simp [SequenceValidator.validate, h0]
    have h2 : checkFirstElems (Value.seq xs :: rest) =
        (match SequenceValidator.validate Option.none (Value.seq xs) with
         | .ok _ => checkFirstElems rest
         | .error _ => .error (.schemaError "did not validate")) := rfl
    rw [h2, hv] at h
    exact absurd h (by simp)
  · have hv : SequenceValidator.validate Option.none (Value.seq xs) = .ok xs := by
      simp [SequenceValidator.validate, h0]
    have h2 : checkFirstElems (Value.seq xs :: rest) =
        (match SequenceValidator.validate Option.none (Value.seq xs) with
         | .ok _ => checkFirstElems rest
         | .error _ => .error (.schemaError "did not validate")) := rfl
    rw [h2, hv] at h
    exact ⟨h0, h⟩

theorem checkFirst_seq_ne : ∀ {vs : List Value}, checkFirstElems vs = .ok () →
    ∀ {d : Nat} {xs : List ℚ}, vs.get? d = Option.some (Value.seq xs) → xs.length ≠ 0 := by
  intro vs
  induction vs with
  | nil =>
    intro _ d xs hd
    exact absurd hd (by simp)
  | cons v rest ih =>
    intro h d xs hd
    cases d with
    | zero =>
      injection hd with hd
      subst hd
      exact (checkFirst_cons_seq h).1
    | succ d' =>
      have hrest : checkFirstElems rest = .ok () := by
        cases v with
        | num x => exact h
        | str s => exact h
        | seq ys => exact (checkFirst_cons_seq h).2
      exact ih hrest hd

theorem fit_first_ok : ∀ {first : Row} {st0 : FlattenerState}, fit_first first = .ok st0 →
    ∃ elems, first = Row.tup elems ∧ elems ≠ [] ∧ checkFirstElems elems = .ok () ∧
      st0 = ⟨enumFrom 0 (firstTupleKeys (elems.map classify) 0),
             firstTupleKeys (elems.map classify) 0,
             elems.map classify,
             catPositions (elems.map classify) 0⟩ := by
  intro first st0 h
  cases first with
  | lst es => exact absurd h (by simp [fit_first])
  | tup elems =>
    refine ⟨elems, rfl, ?_, ?_, ?_⟩
    all_goals
      (rw [show fit_first (Row.tup elems) =
        (match checkFirstElems elems with
         | .error e => Except.error e
         | .ok _ =>
           if elems.isEmpty then .error (.valueError "Cannot fit with no empty features")
           else .ok (fit_first_go ⟨[], [], [], []⟩ 0 elems)) from rfl] at h)
    · cases hc : checkFirstElems elems with
      | error e => rw [hc] at h; exact absurd h (by simp)
      | ok u =>
        rw [hc] at h
        intro habs
        rw [habs] at h
        exact absurd h (by simp)
    · cases hc : checkFirstElems elems with
      | error e => rw [hc] at h; exact absurd h (by simp)
      | ok u =>
        obtain ⟨⟩ := u
        rfl
    · cases hc : checkFirstElems elems with
      | error e => rw [hc] at h; exact absurd h (by simp)
      | ok u =>
        rw [hc] at h
        by_cases hemp : elems.isEmpty
        · rw [if_pos hemp] at h
          exact absurd h (by simp)
        · rw [if_neg hemp] at h
          have hgo := fit_first_go_closed elems ⟨[], [], [], []⟩ 0 (by intro pr hpr; simp at hpr)
          rw [hgo] at h
          injection h with h
          rw [← h]
          rfl

theorem inv_fit_first {first : Row} {st0 : FlattenerState}
    (h : fit_first first = .ok st0) : Inv st0 := by
  obtain ⟨elems, _, hne, hchk, hst⟩ := fit_first_ok h
  subst hst
  constructor
  · show ((enumFrom 0 (firstTupleKeys (elems.map classify) 0)).map Prod.fst).Nodup
    rw [enumFrom_map_fst]
    exact firstTupleKeys_nodup _ 0
  · intro p pr hp
    rw [show (FlattenerState.mk (enumFrom 0 (firstTupleKeys (elems.map classify) 0)) _ _ _).indexes
      = enumFrom 0 (firstTupleKeys (elems.map classify) 0) from rfl] at hp
    rw [enumFrom_get?] at hp
    cases hk : (firstTupleKeys (elems.map classify) 0).get? p with
    | none => rw [hk] at hp; exact absurd hp (by simp)
    | some k =>
      rw [hk] at hp
      simp at hp
      rw [← hp]
  · show firstTupleKeys (elems.map classify) 0 =
      (enumFrom 0 (firstTupleKeys (elems.map classify) 0)).map Prod.fst
    rw [enumFrom_map_fst]
  · intro i v hmem
    have hk : (i, SubKey.none) ∈ firstTupleKeys (elems.map classify) 0 := by
      have := List.mem_map_of_mem Prod.fst hmem
      rwa [enumFrom_map_fst] at this
    obtain ⟨d, hd1, hd2⟩ := firstTupleKeys_none_mem _ 0 i hk
    show (elems.map classify).get? i = Option.some ColKind.numeric
    rw [hd1]
    simpa using hd2
  · intro i s v hmem
    have hk : (i, SubKey.str s) ∈ firstTupleKeys (elems.map classify) 0 := by
      have := List.mem_map_of_mem Prod.fst hmem
      rwa [enumFrom_map_fst] at this
    exact absurd hk (fun hx => firstTupleKeys_str_mem _ 0 i s hx)
  · intro i t v hmem
    have hk : (i, SubKey.idx t) ∈ firstTupleKeys (elems.map classify) 0 := by
      have := List.mem_map_of_mem Prod.fst hmem
      rwa [enumFrom_map_fst] at this
    obtain ⟨d, n, hd1, hd2, hd3⟩ := firstTupleKeys_idx_mem _ 0 i t hk
    refine ⟨n, ?_, hd3⟩
    show (elems.map classify).get? i = Option.some (ColKind.fixedVector n)
    rw [hd1]
    simpa using hd2
  · intro i hkind
    obtain ⟨p, hp⟩ := firstTupleKeys_numPos (elems.map classify) i 0 hkind
    show (dictLookup (enumFrom 0 (firstTupleKeys (elems.map classify) 0)) (i, SubKey.none)).isSome
      = true
    rw [dictLookup_enumFrom]
    rw [show (0 : Nat) + i = i from by omega] at hp
    rw [hp]
    rfl
  · intro i n hkind
    obtain ⟨p, hp⟩ := firstTupleKeys_vecPos (elems.map classify) i 0 n hkind
    refine ⟨p, ?_⟩
    intro t ht
    show dictLookup (enumFrom 0 (firstTupleKeys (elems.map classify) 0)) (i, SubKey.idx t) =
      Option.some (p + t)
    rw [dictLookup_enumFrom]
    rw [show (0 : Nat) + i = i from by omega] at hp
    rw [hp t ht]
    simp
  · intro i n hkind
    show 1 ≤ n
    rw [show (FlattenerState.mk _ _ (elems.map classify) _).schema = elems.map classify
      from rfl] at hkind
    rw [List.get?_map] at hkind
    cases hv : elems.get? i with
    | none => rw [hv] at hkind; exact absurd hkind (by simp)
    | some v =>
      rw [hv] at hkind
      cases v with
      | num x => exact absurd hkind (by simp [classify])
      | str s => exact absurd hkind (by simp [classify])
      | seq xs =>
        have hn : n = xs.length := by
          simp [classify] at hkind
          omega
        subst hn
        have := checkFirst_seq_ne hchk hv
        omega
  · intro i
    show i ∈ catPositions (elems.map classify) 0 ↔ _
    rw [catPositions_mem]
    constructor
    · intro ⟨d, hd1, hd2⟩
      rw [hd2]
      simpa using hd1
    · intro hk
      exact ⟨i, hk, by omega⟩
  · show elems.map classify ≠ []
    intro habs
    rw [List.map_eq_nil] at habs
    exact hne habs

/-! ## Top-level equations -/

theorem fit_cons_eq (first : Row) (rest : List Row) :
    fit (first :: rest) =
      match fit_first first with
      | .error e => .error e
      | .ok st0 =>
        if st0.str_tuple_indexes ≠ [] then fit_loop st0 (first :: rest) else .ok st0 := rfl

theorem fit_transform_cons_eq (first : Row) (rest : List Row) :
    fit_transform (first :: rest) =
      match fit_first first with
      | .error e => .error e
      | .ok st0 => ft_loop st0 (first :: rest) [] := rfl

theorem sparse_fit_transform_cons_eq (first : Row) (rest : List Row) :
    sparse_fit_transform (first :: rest) =
      match fit_first first with
      | .error e => .error e
      | .ok st0 => sparse_ft_loop st0 (first :: rest) [] [] [0] := rfl

theorem foldl_fit_step_id : ∀ (dps : List (List Value)) {st : FlattenerState},
    st.str_tuple_indexes = [] → dps.foldl fit_step st = st := by
  intro dps
  induction dps with
  | nil => intro st _; rfl
  | cons dp dps' ih =>
    intro st h
    rw [List.foldl_cons, fit_step_id dp h, ih h]

theorem fit_loop_no_cat {st : FlattenerState} (X : List Row)
    (h : st.str_tuple_indexes = []) :
    fit_loop st X = (validateList st.schema X).map (fun _ => st) := by
  rw [fit_loop_closed]
  cases validateList st.schema X with
  | error e => rfl
  | ok dps =>
    rw [except_map_ok, except_map_ok, foldl_fit_step_id dps h]

theorem sparse_loop_err_of_validate {st : FlattenerState} (hI : Inv st) :
    ∀ (R : List Row) (e : Err) (data : List ℚ) (indices indptr : List Nat),
      validateList st.schema R = .error e →
      sparse_loop st R data indices indptr = .error e := by
  intro R
  induction R with
  | nil =>
    intro e data indices indptr h
    exact absurd h (by simp [validateList])
  | cons r rs ih =>
    intro e data indices indptr h
    rw [validateList_cons] at h
    rw [sparse_loop_cons]
    cases hv : TupleValidator.validate st.schema r with
    | error e' =>
      rw [hv] at h
      injection h with h
      rw [h]
    | ok dp =>
      rw [hv] at h
      have h2 : (match validateList st.schema rs with
                 | Except.error e => Except.error e
                 | Except.ok dps => (Except.ok (dp :: dps) : Except Err (List (List Value)))) =
          Except.error e := h
      have hm := validate_matches hv
      obtain ⟨ps, hps, _⟩ := sparse_step_sound hI hm dp [] rfl
      have hps' : sparse_transform_step st dp = .ok ps := hps
      show (match sparse_transform_step st dp with
            | Except.error e => Except.error e
            | Except.ok ps =>
              sparse_loop st rs (appendPairs data indices ps).1 (appendPairs data indices ps).2
                (indptr ++ [(appendPairs data indices ps).1.length])) = Except.error e
      rw [hps']
      show sparse_loop st rs (appendPairs data indices ps).1 (appendPairs data indices ps).2
        (indptr ++ [(appendPairs data indices ps).1.length]) = .error e
      apply ih
      cases hvl : validateList st.schema rs with
      | error e' =>
        rw [hvl] at h2
        exact h2
      | ok dps =>
        rw [hvl] at h2
        have h3 : (Except.ok (dp :: dps) : Except Err (List (List Value))) = Except.error e := h2
        exact absurd h3 (by simp)

/-- C2: fit_transform on a fresh instance equals fit followed by transform
on the same dataset, in dense and in sparse mode alike: the results agree
as whole Except values (the same matrix and final learned state on
success, the same exception on failure). -/
theorem c2_fused_fit_transform_equivalent (X : List Row) :
    (fit_transform X = (fit X).bind (fun st => (st.transform X).map (fun m => (st, m)))) ∧
    (sparse_fit_transform X =
      (fit X).bind (fun st => (st.sparse_transform X).map (fun m => (st, m)))) := by
  cases X with
  | nil => exact ⟨rfl, rfl⟩
  | cons first rest =>
    rw [fit_transform_cons_eq, sparse_fit_transform_cons_eq, fit_cons_eq]
    cases hf : fit_first first with
    | error e => exact ⟨rfl, rfl⟩
    | ok st0 =>
      have hI0 : Inv st0 := inv_fit_first hf
      constructor
      · show ft_loop st0 (first :: rest) [] =
          (if st0.str_tuple_indexes ≠ [] then fit_loop st0 (first :: rest)
           else Except.ok st0).bind
            (fun st => (st.transform (first :: rest)).map (fun m => (st, m)))
        rw [ft_sim (first :: rest) st0 [] hI0]
        by_cases hsti : st0.str_tuple_indexes ≠ []
        · rw [if_pos hsti]
          rfl
        · rw [if_neg hsti]
          simp only [ne_eq, Decidable.not_not] at hsti
          rw [fit_loop_no_cat (first :: rest) hsti]
          cases hvl : validateList st0.schema (first :: rest) with
          | error e =>
            rw [except_map_error, except_bind_error, except_bind_ok,
              FlattenerState.transform_closed hI0, hvl, except_map_error, except_map_error]
          | ok dps =>
            rw [except_map_ok]
            rw [except_bind_ok, except_bind_ok]
            rfl
      · show sparse_ft_loop st0 (first :: rest) [] [] [0] =
          (if st0.str_tuple_indexes ≠ [] then fit_loop st0 (first :: rest)
           else Except.ok st0).bind
            (fun st => (st.sparse_transform (first :: rest)).map (fun m => (st, m)))
        rw [sp_sim (first :: rest) st0 [] [] [0] hI0]
        by_cases hsti : st0.str_tuple_indexes ≠ []
        · rw [if_pos hsti]
          rfl
        · rw [if_neg hsti]
          simp only [ne_eq, Decidable.not_not] at hsti
          rw [fit_loop_no_cat (first :: rest) hsti]
          cases hvl : validateList st0.schema (first :: rest) with
          | error e =>
            rw [except_map_error, except_bind_error, except_bind_ok]
            show Except.error e = (sparse_loop st0 (first :: rest) [] [] [0]).map
              (fun m => (st0, m))
            rw [sparse_loop_err_of_validate hI0 (first :: rest) e [] [] [0] hvl,
              except_map_error]
          | ok dps =>
            rw [except_map_ok]
            rw [except_bind_ok, except_bind_ok]
            rfl

/-! ## Validation errors are schema errors, and propagate -/

theorem useFloat_err_kind {v : Value} {e : Err} (h : useFloat v = .error e) :
    ∃ m, e = Err.schemaError m := by
  cases v with
  | num x => exact absurd h (by simp [useFloat])
  | str s =>
    have h2 : (match pyFloatOfString s with
      | Option.some x => (Except.ok x : Except Err ℚ)
      | Option.none => Except.error (.schemaError "float() raised")) = .error e := h
    cases hp : pyFloatOfString s with
    | none =>
      rw [hp] at h2
      injection h2 with h2
      exact ⟨_, h2.symm⟩
    | some x =>
      rw [hp] at h2
      exact absurd h2 (by simp)
  | seq xs =>
    have h2 : (Except.error (Err.schemaError "float() raised") : Except Err ℚ) = .error e := h
    injection h2 with h2
    exact ⟨_, h2.symm⟩

theorem validateValue_err_kind {k : ColKind} {v : Value} {e : Err}
    (h : validateValue k v = .error e) : ∃ m, e = Err.schemaError m := by
  cases k with
  | numeric =>
    have h2 : (useFloat v).map Value.num = .error e := h
    cases huf : useFloat v with
    | error e' =>
      rw [huf, except_map_error] at h2
      injection h2 with h2
      subst h2
      exact useFloat_err_kind huf
    | ok x =>
      rw [huf, except_map_ok] at h2
      exact absurd h2 (by simp)
  | categorical =>
    cases v with
    | num x =>
      have h2 : (Except.error (Err.schemaError "should be instance of basestring") :
        Except Err Value) = .error e := h
      injection h2 with h2
      exact ⟨_, h2.symm⟩
    | str s =>
      have h2 : (Except.ok (Value.str s) : Except Err Value) = .error e := h
      exact absurd h2 (by simp)
    | seq xs =>
      have h2 : (Except.error (Err.schemaError "should be instance of basestring") :
        Except Err Value) = .error e := h
      injection h2 with h2
      exact ⟨_, h2.symm⟩
  | fixedVector n =>
    have h2 : (match SequenceValidator.validate (Option.some n) v with
      | .ok xs => (Except.ok (Value.seq xs) : Except Err Value)
      | .error (.schemaError m) => .error (.schemaError m)
      | .error _ => .error (.schemaError "validator raised")) = .error e := h
    cases hv : SequenceValidator.validate (Option.some n) v with
    | ok xs =>
      rw [hv] at h2
      exact absurd h2 (by simp)
    | error e' =>
      rw [hv] at h2
      cases e' with
      | schemaError m =>
        injection h2 with h2
        exact ⟨m, h2.symm⟩
      | valueError m => injection h2 with h2; exact ⟨_, h2.symm⟩
      | keyError => injection h2 with h2; exact ⟨_, h2.symm⟩
      | assertionError => injection h2 with h2; exact ⟨_, h2.symm⟩

theorem validateZip_err_kind :
    ∀ {ks : List ColKind} {vs : List Value} {e : Err},
      validateZip ks vs = .error e → ∃ m, e = Err.schemaError m := by
  intro ks
  induction ks with
  | nil =>
    intro vs e h
    cases vs <;> exact absurd h (by simp [validateZip])
  | cons k ks' ih =>
    intro vs e h
    cases vs with
    | nil => exact absurd h (by simp [validateZip])
    | cons v vs' =>
      simp only [validateZip, bind, Except.bind] at h
      cases hv : validateValue k v with
      | error e' =>
        rw [hv] at h
        injection h with h
        subst h
        exact validateValue_err_kind hv
      | ok v' =>
        rw [hv] at h
        cases hz : validateZip ks' vs' with
        | error e' =>
          rw [hz] at h
          injection h with h
          subst h
          exact ih hz
        | ok dps =>
          rw [hz] at h
          exact absurd h (by simp [pure, Except.pure])

theorem validate_err_kind {sch : List ColKind} {r : Row} {e : Err}
    (h : TupleValidator.validate sch r = .error e) : ∃ m, e = Err.schemaError m := by
  cases r with
  | lst es =>
    injection h with h
    exact ⟨_, h.symm⟩
  | tup es =>
    simp only [TupleValidator.validate] at h
    by_cases hlen : es.length ≠ sch.length
    · rw [if_pos hlen] at h
      injection h with h
      exact ⟨_, h.symm⟩
    · rw [if_neg hlen] at h
      exact validateZip_err_kind h

theorem validateList_err_of_mem {sch : List ColKind} :
    ∀ {X : List Row}, (∃ r ∈ X, ∃ e, TupleValidator.validate sch r = .error e) →
      ∃ m, validateList sch X = .error (.schemaError m) := by
  intro X
  induction X with
  | nil =>
    intro ⟨r, hr, _⟩
    simp at hr
  | cons r0 rs ih =>
    intro ⟨r, hr, e, he⟩
    rw [validateList_cons]
    cases hv : TupleValidator.validate sch r0 with
    | error e0 =>
      obtain ⟨m, hm⟩ := validate_err_kind hv
      exact ⟨m, by rw [hm]⟩
    | ok dp =>
      rcases List.mem_cons.mp hr with he0 | hmem
      · subst he0
        rw [hv] at he
        exact absurd he (by simp)
      · obtain ⟨m, hm⟩ := ih ⟨r, hmem, e, he⟩
        rw [hm]
        exact ⟨m, rfl⟩

theorem inv_fit {X : List Row} {st : FlattenerState} (h : fit X = .ok st) : Inv st := by
  cases X with
  | nil => exact absurd h (by simp [fit])
  | cons first rest =>
    rw [fit_cons_eq] at h
    cases hf : fit_first first with
    | error e =>
      rw [hf] at h
      exact absurd h (by simp)
    | ok st0 =>
      rw [hf] at h
      have hI0 : Inv st0 := inv_fit_first hf
      have h2 : (if st0.str_tuple_indexes ≠ [] then fit_loop st0 (first :: rest)
        else Except.ok st0) = Except.ok st := h
      by_cases hsti : st0.str_tuple_indexes ≠ []
      · rw [if_pos hsti, fit_loop_closed] at h2
        cases hvl : validateList st0.schema (first :: rest) with
        | error e =>
          rw [hvl] at h2
          exact absurd h2 (by simp [except_map_error])
        | ok dps =>
          rw [hvl, except_map_ok] at h2
          injection h2 with h2
          rw [← h2]
          exact inv_foldl_fit_step hI0
      · rw [if_neg hsti] at h2
        injection h2 with h2
        rw [← h2]
        exact hI0

theorem validateList_matches {sch : List ColKind} :
    ∀ {X : List Row} {dps : List (List Value)}, validateList sch X = .ok dps →
      ∀ dp ∈ dps, dpMatches sch dp := by
  intro X
  induction X with
  | nil =>
    intro dps h dp hdp
    have h2 : (Except.ok [] : Except Err (List (List Value))) = Except.ok dps := h
    injection h2 with h2
    rw [← h2] at hdp
    simp at hdp
  | cons r rs ih =>
    intro dps h dp hdp
    rw [validateList_cons] at h
    cases hv : TupleValidator.validate sch r with
    | error e =>
      rw [hv] at h
      exact absurd h (by simp)
    | ok dp0 =>
      rw [hv] at h
      cases hvl : validateList sch rs with
      | error e =>
        rw [hvl] at h
        exact absurd h (by simp)
      | ok dps' =>
        rw [hvl] at h
        have h2 : (Except.ok (dp0 :: dps') : Except Err (List (List Value))) = Except.ok dps := h
        injection h2 with h2
        rw [← h2] at hdp
        rcases List.mem_cons.mp hdp with he | hmem
        · subst he
          exact validate_matches hv
        · exact ih hvl dp hmem

/-! ## Mismatched values make validation fail -/

theorem validateValue_err_of_mismatch {k : ColKind} {v : Value}
    (h : valueMismatch k v = true) : ∃ e, validateValue k v = .error e := by
  cases k with
  | numeric =>
    cases v with
    | num x => exact absurd h (by simp [valueMismatch])
    | str s =>
      have hp : pyFloatOfString s = Option.none :=
        Option.isNone_iff_eq_none.mp (by simpa [valueMismatch] using h)
      refine ⟨Err.schemaError "float() raised", ?_⟩
      have huf : useFloat (Value.str s) = .error (.schemaError "float() raised") := by
        show (match pyFloatOfString s with
          | Option.some x => (Except.ok x : Except Err ℚ)
          | Option.none => Except.error (.schemaError "float() raised")) = _
        rw [hp]
      show (useFloat (Value.str s)).map Value.num = _
      rw [huf, except_map_error]
    | seq xs => exact ⟨_, rfl⟩
  | categorical =>
    cases v with
    | num x => exact ⟨_, rfl⟩
    | str s => exact absurd h (by simp [valueMismatch])
    | seq xs => exact ⟨_, rfl⟩
  | fixedVector n =>
    cases v with
    | num x => exact ⟨_, rfl⟩
    | str s => exact ⟨_, rfl⟩
    | seq xs =>
      have hne : xs.length ≠ n := by simpa [valueMismatch] using h
      by_cases h0 : xs.length = 0
      · refine ⟨Err.schemaError "validator raised", ?_⟩
        have hsv : SequenceValidator.validate (Option.some n) (Value.seq xs) =
            .error (.valueError "Expecting a non-empty sequence") := by
          show (if xs.length = 0 then
              (Except.error (Err.valueError "Expecting a non-empty sequence") :
                Except Err (List ℚ))
            else if xs.length ≠ n then .error (.schemaError "sequence length mismatch")
            else .ok xs) = _
          rw [if_pos h0]
        show (match SequenceValidator.validate (Option.some n) (Value.seq xs) with
          | .ok ys => (Except.ok (Value.seq ys) : Except Err Value)
          | .error (.schemaError m) => .error (.schemaError m)
          | .error _ => .error (.schemaError "validator raised")) = _
        rw [hsv]
      · refine ⟨Err.schemaError "sequence length mismatch", ?_⟩
        have hsv : SequenceValidator.validate (Option.some n) (Value.seq xs) =
            .error (.schemaError "sequence length mismatch") := by
          show (if xs.length = 0 then
              (Except.error (Err.valueError "Expecting a non-empty sequence") :
                Except Err (List ℚ))
            else if xs.length ≠ n then .error (.schemaError "sequence length mismatch")
            else .ok xs) = _
          rw [if_neg h0, if_pos hne]
        show (match SequenceValidator.validate (Option.some n) (Value.seq xs) with
          | .ok ys => (Except.ok (Value.seq ys) : Except Err Value)
          | .error (.schemaError m) => .error (.schemaError m)
          | .error _ => .error (.schemaError "validator raised")) = _
        rw [hsv]

theorem validateZip_err_at :
    ∀ {ks : List ColKind} {vs : List Value} {i : Nat} {k : ColKind} {v : Value},
      ks.get? i = Option.some k → vs.get? i = Option.some v → valueMismatch k v = true →
      ∃ e, validateZip ks vs = .error e := by
  intro ks
  induction ks with
  | nil =>
    intro vs i k v hk _ _
    exact absurd hk (by simp)
  | cons k0 ks' ih =>
    intro vs i k v hk hv hmis
    cases vs with
    | nil => exact absurd hv (by simp)
    | cons v0 vs' =>
      cases i with
      | zero =>
        have hk0 : k0 = k := by injection hk
        have hv0 : v0 = v := by injection hv
        subst hk0
        subst hv0
        obtain ⟨e, he⟩ := validateValue_err_of_mismatch hmis
        refine ⟨e, ?_⟩
        simp only [validateZip, bind, Except.bind]
        rw [he]
      | succ i' =>
        cases hvv : validateValue k0 v0 with
        | error e =>
          refine ⟨e, ?_⟩
          simp only [validateZip, bind, Except.bind]
          rw [hvv]
        | ok v' =>
          obtain ⟨e, he⟩ := @ih vs' i' k v hk hv hmis
          refine ⟨e, ?_⟩
          simp only [validateZip, bind, Except.bind]
          rw [hvv, he]

theorem validate_err_of_bad {sch : List ColKind} {r : Row} (h : badTuple sch r) :
    ∃ e, TupleValidator.validate sch r = .error e := by
  obtain ⟨vs, hr, hbad⟩ := h
  subst hr
  show ∃ e, (if vs.length ≠ sch.length then
      (Except.error (Err.schemaError "Expecting a tuple of size N") : Except Err (List Value))
    else validateZip sch vs) = .error e
  by_cases hlen : vs.length ≠ sch.length
  · rw [if_pos hlen]
    exact ⟨_, rfl⟩
  · rw [if_neg hlen]
    rcases hbad with hl | ⟨i, k, v, hk, hv, hmis⟩
    · exact absurd hl hlen
    · exact validateZip_err_at hk hv hmis

/-! ## The first-seen order of the one-hot vocabulary -/

theorem add_column_reverse {st : FlattenerState} (hI : Inv st) (i : Nat) (sub : SubKey) :
    (st.add_column i sub).reverse = addNew st.reverse (i, sub) := by
  unfold FlattenerState.add_column addNew
  by_cases hk : (dictLookup st.indexes (i, sub)).isSome = true
  · have hmem : (i, sub) ∈ st.reverse := by
      rw [hI.rev_eq]
      exact dictLookup_isSome_iff.mp hk
    rw [if_pos hk, if_pos hmem]
  · have hmem : (i, sub) ∉ st.reverse := by
      rw [hI.rev_eq]
      intro hm
      exact hk (dictLookup_isSome_iff.mpr hm)
    rw [if_neg hk, if_neg hmem]

theorem foldl_stepOne_reverse (dp : List Value) :
    ∀ (l : List Nat) (s : FlattenerState), Inv s →
      (∀ i ∈ l, i ∈ s.str_tuple_indexes) →
      (∀ i ∈ l, ∃ s0, dp.get? i = Option.some (Value.str s0)) →
      (l.foldl (stepOne dp) s).reverse = (obsKeys l dp).foldl addNew s.reverse := by
  intro l
  induction l with
  | nil => intro s _ _ _; rfl
  | cons i l' ih =>
    intro s hI hmem hstr
    obtain ⟨s0, hs0⟩ := hstr i (List.mem_cons_self i l')
    have hobs : obsKeys (i :: l') dp = (i, SubKey.str s0) :: obsKeys l' dp := by
      unfold obsKeys
      rw [List.filterMap_cons, hs0]
    have hstep : stepOne dp s i = s.add_column i (SubKey.str s0) := by
      unfold stepOne
      have hgd : dp.getD i (Value.str "") = Value.str s0 := by
        rw [List.getD_eq_getElem?_getD, ← List.get?_eq_getElem?, hs0]
        rfl
      rw [hgd]
    have hcat : s.schema.get? i = Option.some ColKind.categorical :=
      (hI.sti_spec i).mp (hmem i (List.mem_cons_self i l'))
    rw [List.foldl_cons, hobs, List.foldl_cons, hstep]
    have hI' : Inv (s.add_column i (SubKey.str s0)) := inv_add_column_str hI hcat
    rw [ih (s.add_column i (SubKey.str s0)) hI'
      (by
        intro i' hi'
        rw [add_column_sti]
        exact hmem i' (List.mem_cons_of_mem i hi'))
      (fun i' hi' => hstr i' (List.mem_cons_of_mem i hi'))]
    rw [add_column_reverse hI]

theorem fit_step_reverse {st : FlattenerState} (hI : Inv st) {dp : List Value}
    (hm : dpMatches st.schema dp) :
    (fit_step st dp).reverse = (obsKeys st.str_tuple_indexes dp).foldl addNew st.reverse := by
  unfold fit_step
  refine foldl_stepOne_reverse dp st.str_tuple_indexes st hI (fun i h => h) ?_
  intro i hi
  have hcat := (hI.sti_spec i).mp hi
  obtain ⟨b, hb, hvm⟩ := forall₂_get? hm hcat
  cases b with
  | str s => exact ⟨s, hb⟩
  | num x => exact False.elim hvm
  | seq xs => exact False.elim hvm

theorem foldl_fit_step_reverse :
    ∀ (dps : List (List Value)) (s : FlattenerState), Inv s →
      (∀ dp ∈ dps, dpMatches s.schema dp) →
      (dps.foldl fit_step s).reverse =
        ((dps.map (obsKeys s.str_tuple_indexes)).flatten).foldl addNew s.reverse := by
  intro dps
  induction dps with
  | nil => intro s _ _; rfl
  | cons dp dps' ih =>
    intro s hI hm
    rw [List.foldl_cons, List.map_cons, List.flatten_cons, List.foldl_append]
    rw [ih (fit_step s dp) (inv_fit_step hI)
      (by
        intro dp' hdp'
        rw [fit_step_schema]
        exact hm dp' (List.mem_cons_of_mem dp hdp'))]
    rw [fit_step_sti, fit_step_reverse hI (hm dp (List.mem_cons_self dp dps'))]

theorem mem_foldl_addNew : ∀ (ks acc : List Key) (k : Key),
    k ∈ ks.foldl addNew acc → k ∈ acc ∨ k ∈ ks := by
  intro ks
  induction ks with
  | nil => intro acc k h; exact Or.inl h
  | cons k0 ks' ih =>
    intro acc k h
    rw [List.foldl_cons] at h
    rcases ih (addNew acc k0) k h with hm | hm
    · unfold addNew at hm
      by_cases hk0 : k0 ∈ acc
      · rw [if_pos hk0] at hm
        exact Or.inl hm
      · rw [if_neg hk0] at hm
        rcases List.mem_append.mp hm with h1 | h1
        · exact Or.inl h1
        · have : k = k0 := by simpa using h1
          subst this
          exact Or.inr (List.mem_cons_self k ks')
    · exact Or.inr (List.mem_cons_of_mem k0 hm)

theorem foldl_addNew_split : ∀ (ks init acc : List Key),
    (∀ k ∈ ks, k ∉ init) →
    ks.foldl addNew (init ++ acc) = init ++ ks.foldl addNew acc := by
  intro ks
  induction ks with
  | nil => intro init acc _; rfl
  | cons k0 ks' ih =>
    intro init acc hd
    rw [List.foldl_cons, List.foldl_cons]
    have hk0 : k0 ∉ init := hd k0 (List.mem_cons_self k0 ks')
    have hstep : addNew (init ++ acc) k0 = init ++ addNew acc k0 := by
      unfold addNew
      by_cases hk : k0 ∈ acc
      · rw [if_pos hk, if_pos (List.mem_append.mpr (Or.inr hk))]
      · have hni : k0 ∉ init ++ acc := by
          intro hm
          rcases List.mem_append.mp hm with h1 | h1
          · exact hk0 h1
          · exact hk h1
        rw [if_neg hni, if_neg hk, List.append_assoc]
    rw [hstep]
    exact ih init (addNew acc k0) (fun k hk => hd k (List.mem_cons_of_mem k0 hk))

theorem obsKeys_shape {sti : List Nat} {dp : List Value} {k : Key}
    (h : k ∈ obsKeys sti dp) :
    ∃ i s, k = (i, SubKey.str s) ∧ dp.get? i = Option.some (Value.str s) := by
  unfold obsKeys at h
  obtain ⟨i, _, hsome⟩ := List.mem_filterMap.mp h
  cases hget : dp.get? i with
  | none =>
    rw [hget] at hsome
    exact absurd hsome (by simp)
  | some v =>
    rw [hget] at hsome
    cases v with
    | num x => exact absurd hsome (by simp)
    | seq xs => exact absurd hsome (by simp)
    | str s =>
      have hk : (i, SubKey.str s) = k := by simpa using hsome
      exact ⟨i, s, hk.symm, hget⟩

theorem inv_snd_range {st : FlattenerState} (hI : Inv st) :
    st.indexes.map Prod.snd = List.range st.indexes.length := by
  apply List.ext_get?
  intro p
  rw [List.get?_map]
  by_cases hp : p < st.indexes.length
  · cases hidx : st.indexes.get? p with
    | none =>
      rw [List.get?_eq_getElem?] at hidx
      rw [List.getElem?_eq_none_iff] at hidx
      omega
    | some pr =>
      have := hI.snd_pos p pr hidx
      rw [List.get?_eq_getElem?, List.getElem?_range hp]
      simp [this]
  · rw [List.get?_eq_none.mpr (by omega), List.get?_eq_none.mpr (by rw [List.length_range]; omega)]
    rfl

theorem validateList_singleton {sch : List ColKind} {t : Row} {dp : List Value}
    (h : TupleValidator.validate sch t = .ok dp) :
    validateList sch [t] = .ok [dp] := by
  rw [validateList_cons, h]
  rfl

theorem flatten_obsKeys_nil :
    ∀ (dps : List (List Value)), ((dps.map (obsKeys ([] : List Nat))).flatten) = ([] : List Key) := by
  intro dps
  induction dps with
  | nil => rfl
  | cons dp dps' ih =>
    rw [List.map_cons, List.flatten_cons, ih]
    rfl

/-! # The remaining claims -/

/-- C1: the claim says that for every fitted instance and valid dataset,
densifying the sparse transform output equals the dense transform output
element for element.  The code refutes it: fitting on [("a",)] and
transforming [("b",)] (valid: one categorical position, an unseen value)
stores no entry, so the sparse path hits `if not data:` and returns
numpy.zeros((0, N)) — a 0-row matrix — while the dense path returns the
correct 1-row all-zero matrix.  This is the defect already flagged for
the zero-row fallback: it fires whenever no entry is stored even though
rows were consumed. -/
theorem c1_dense_sparse_divergence :
    fit [Row.tup [Value.str "a"]] =
      .ok ⟨[((0, SubKey.str "a"), 0)], [(0, SubKey.str "a")],
           [ColKind.categorical], [0]⟩ ∧
    FlattenerState.transform
      ⟨[((0, SubKey.str "a"), 0)], [(0, SubKey.str "a")], [ColKind.categorical], [0]⟩
      [Row.tup [Value.str "b"]] = .ok ⟨[[0]], 1⟩ ∧
    FlattenerState.sparse_transform
      ⟨[((0, SubKey.str "a"), 0)], [(0, SubKey.str "a")], [ColKind.categorical], [0]⟩
      [Row.tup [Value.str "b"]] = .ok (.emptyDense (0, 1)) ∧
    (SparseResult.emptyDense (0, 1)).densify = ⟨[], 1⟩ ∧
    (⟨[], 1⟩ : Dense) ≠ (⟨[[0]], 1⟩ : Dense) := by
  refine ⟨rfl, rfl, rfl, rfl, ?_⟩
  decide

/-- C3: the claim says transform returns exactly M rows for a valid
M-tuple dataset, including the all-stored-entries-zero case.  Dense
transform does (second conjunct: 2 rows for 2 tuples), but the sparse
path returns the 0-row numpy.zeros((0, N)) fallback whenever nothing
was stored: on the same fitted instance and the valid 2-row dataset
[("b",), ("c",)] it yields a matrix with 0 rows instead of 2. -/
theorem c3_sparse_row_count_bug :
    fit [Row.tup [Value.str "a"]] =
      .ok ⟨[((0, SubKey.str "a"), 0)], [(0, SubKey.str "a")],
           [ColKind.categorical], [0]⟩ ∧
    FlattenerState.transform
      ⟨[((0, SubKey.str "a"), 0)], [(0, SubKey.str "a")], [ColKind.categorical], [0]⟩
      [Row.tup [Value.str "b"], Row.tup [Value.str "c"]] = .ok ⟨[[0], [0]], 1⟩ ∧
    (⟨[[0], [0]], 1⟩ : Dense).rows.length = 2 ∧
    FlattenerState.sparse_transform
      ⟨[((0, SubKey.str "a"), 0)], [(0, SubKey.str "a")], [ColKind.categorical], [0]⟩
      [Row.tup [Value.str "b"], Row.tup [Value.str "c"]] = .ok (.emptyDense (0, 1)) ∧
    (SparseResult.emptyDense (0, 1)).densify.rows.length = 0 ∧
    (0 : Nat) ≠ 2 := by
  refine ⟨rfl, rfl, rfl, rfl, rfl, ?_⟩
  decide

/-- C4: concrete scenario 1.  Fitting on
[(1, "a", [1.0, 2.0]), (2.5, "b", [3.0, 4.0])] infers the schema
(Numeric, Categorical, FixedVector 2), assigns exactly 5 columns in the
order numeric, the two vector offsets, then the two categorical values,
and both transform and fit_transform on the same dataset produce the
2x5 matrix with rows [1, 1, 2, 1, 0] and [5/2, 3, 4, 0, 1].
Confirmed by evaluation of the embedded code. -/
theorem c4_concrete_scenario_one :
    fit [Row.tup [Value.num 1, Value.str "a", Value.seq [1, 2]],
         Row.tup [Value.num (5/2), Value.str "b", Value.seq [3, 4]]] =
      .ok ⟨[((0, SubKey.none), 0), ((2, SubKey.idx 0), 1), ((2, SubKey.idx 1), 2),
            ((1, SubKey.str "a"), 3), ((1, SubKey.str "b"), 4)],
           [(0, SubKey.none), (2, SubKey.idx 0), (2, SubKey.idx 1),
            (1, SubKey.str "a"), (1, SubKey.str "b")],
           [ColKind.numeric, ColKind.categorical, ColKind.fixedVector 2],
           [1]⟩ ∧
    FlattenerState.transform
      ⟨[((0, SubKey.none), 0), ((2, SubKey.idx 0), 1), ((2, SubKey.idx 1), 2),
        ((1, SubKey.str "a"), 3), ((1, SubKey.str "b"), 4)],
       [(0, SubKey.none), (2, SubKey.idx 0), (2, SubKey.idx 1),
        (1, SubKey.str "a"), (1, SubKey.str "b")],
       [ColKind.numeric, ColKind.categorical, ColKind.fixedVector 2],
       [1]⟩
      [Row.tup [Value.num 1, Value.str "a", Value.seq [1, 2]],
       Row.tup [Value.num (5/2), Value.str "b", Value.seq [3, 4]]] =
      .ok ⟨[[1, 1, 2, 1, 0], [5/2, 3, 4, 0, 1]], 5⟩ ∧
    fit_transform [Row.tup [Value.num 1, Value.str "a", Value.seq [1, 2]],
                   Row.tup [Value.num (5/2), Value.str "b", Value.seq [3, 4]]] =
      .ok (⟨[((0, SubKey.none), 0), ((2, SubKey.idx 0), 1), ((2, SubKey.idx 1), 2),
             ((1, SubKey.str "a"), 3), ((1, SubKey.str "b"), 4)],
            [(0, SubKey.none), (2, SubKey.idx 0), (2, SubKey.idx 1),
             (1, SubKey.str "a"), (1, SubKey.str "b")],
            [ColKind.numeric, ColKind.categorical, ColKind.fixedVector 2],
            [1]⟩,
           ⟨[[1, 1, 2, 1, 0], [5/2, 3, 4, 0, 1]], 5⟩) := by
  refine ⟨?_, ?_, ?_⟩ <;> rfl

/-- C6: invoking fit or fit_transform (dense or sparse) on an empty
dataset always fails with the empty-dataset ValueError and produces no
matrix; _wrapcall leaves the ValueError untouched, so it surfaces to
the caller as a ValueError.  Confirmed. -/
theorem c6_empty_dataset_error :
    fit [] = .error (.valueError "Cannot fit with an empty dataset") ∧
    fit_transform [] = .error (.valueError "Cannot fit with an empty dataset") ∧
    sparse_fit_transform [] = .error (.valueError "Cannot fit with an empty dataset") ∧
    wrapcall (fit []) = .error (.valueError "Cannot fit with an empty dataset") := by
  exact ⟨rfl, rfl, rfl, rfl⟩

/-- C8: the claim (and the spec) say the sparse writer omits entries
whose value is exactly 0.0.  The code refutes it: the guard is written
`if data != 0:` — comparing the accumulating array object, not the
value, to 0 — which is always true, so every pair the step generator
yields is stored.  Here a numeric 0.0 row produces a stored entry
(data [0], indices [0]) rather than an empty one. -/
theorem c8_zero_entries_stored :
    fit [Row.tup [Value.num 1]] =
      .ok ⟨[((0, SubKey.none), 0)], [(0, SubKey.none)], [ColKind.numeric], []⟩ ∧
    FlattenerState.sparse_transform
      ⟨[((0, SubKey.none), 0)], [(0, SubKey.none)], [ColKind.numeric], []⟩
      [Row.tup [Value.num 0]] = .ok (.mat ⟨[0], [0], [0, 1], (1, 1)⟩) ∧
    (⟨[0], [0], [0, 1], (1, 1)⟩ : Csr).data ≠ [] ∧
    arrayNeZero = (fun _ => true) := by
  refine ⟨rfl, rfl, ?_, rfl⟩
  decide

/-- C7 (counterexample): the claim says a tuple whose i-th element type
disagrees with the fitted column kind is always rejected.  At a Numeric
position the validator is Schema(Use(float)), which calls float() on
the value: every string float() accepts — plain digits like "25",
exponent notation like "1e5" and "1E2", surrounding whitespace like
" 25", and the non-finite spellings like "inf" — is accepted and
coerced instead of rejected, so a type disagreement (str at a Numeric
position) can pass validation; only strings float() raises on, like
"abc", are mismatches. -/
theorem c7_counterexample_parseable_string :
    fit [Row.tup [Value.num 1]] =
      .ok ⟨[((0, SubKey.none), 0)], [(0, SubKey.none)], [ColKind.numeric], []⟩ ∧
    valueMismatch ColKind.numeric (Value.str "25") = false ∧
    valueMismatch ColKind.numeric (Value.str "1e5") = false ∧
    valueMismatch ColKind.numeric (Value.str "1E2") = false ∧
    valueMismatch ColKind.numeric (Value.str " 25") = false ∧
    valueMismatch ColKind.numeric (Value.str "inf") = false ∧
    valueMismatch ColKind.numeric (Value.str "abc") = true ∧
    FlattenerState.transform
      ⟨[((0, SubKey.none), 0)], [(0, SubKey.none)], [ColKind.numeric], []⟩
      [Row.tup [Value.str "25"]] = .ok ⟨[[25]], 1⟩ ∧
    FlattenerState.transform
      ⟨[((0, SubKey.none), 0)], [(0, SubKey.none)], [ColKind.numeric], []⟩
      [Row.tup [Value.str "1e5"]] = .ok ⟨[[100000]], 1⟩ := by
  refine ⟨rfl, ?_, ?_, ?_, ?_, ?_, ?_, ?_, ?_⟩ <;> decide

/-- C7 (amended): for every fitted instance, transforming a dataset
containing a tuple of the wrong length, or with a value the frozen
column kind actually rejects (a mismatch modulo the Use(float)
coercion, which accepts float-parseable strings at Numeric positions),
fails with a SchemaError in both the dense and the sparse path, and the
methods assign no instance attribute, so the frozen fitted state is
unchanged after the call. -/
theorem c7_schema_mismatch_rejected {X0 X : List Row} {st : FlattenerState}
    (hfit : fit X0 = .ok st) (hbad : ∃ r ∈ X, badTuple st.schema r) :
    (∃ m, FlattenerState.transform st X = .error (.schemaError m)) ∧
    (∃ m, FlattenerState.sparse_transform st X = .error (.schemaError m)) ∧
    (FlattenerState.transformS st X).1 = st ∧
    (FlattenerState.sparse_transformS st X).1 = st := by
  have hI := inv_fit hfit
  obtain ⟨r, hr, hb⟩ := hbad
  obtain ⟨m, hm⟩ := validateList_err_of_mem ⟨r, hr, validate_err_of_bad hb⟩
  refine ⟨⟨m, ?_⟩, ⟨m, ?_⟩, rfl, rfl⟩
  · rw [FlattenerState.transform_closed hI, hm, except_map_error]
  · show sparse_loop st X [] [] [0] = _
    exact sparse_loop_err_of_validate hI X _ [] [] [0] hm

/-- C7 (witness): concrete scenario 4 — fit on [(1, "a")], then
transform the wrong-length tuple (1, "a", [1, 2]): both paths fail with
a SchemaError and the state is returned unchanged. -/
theorem c7_witness :
    (∃ m, FlattenerState.transform
      ⟨[((0, SubKey.none), 0), ((1, SubKey.str "a"), 1)],
       [(0, SubKey.none), (1, SubKey.str "a")],
       [ColKind.numeric, ColKind.categorical], [1]⟩
      [Row.tup [Value.num 1, Value.str "a", Value.seq [1, 2]]] =
        .error (.schemaError m)) ∧
    (∃ m, FlattenerState.sparse_transform
      ⟨[((0, SubKey.none), 0), ((1, SubKey.str "a"), 1)],
       [(0, SubKey.none), (1, SubKey.str "a")],
       [ColKind.numeric, ColKind.categorical], [1]⟩
      [Row.tup [Value.num 1, Value.str "a", Value.seq [1, 2]]] =
        .error (.schemaError m)) ∧
    (FlattenerState.transformS
      ⟨[((0, SubKey.none), 0), ((1, SubKey.str "a"), 1)],
       [(0, SubKey.none), (1, SubKey.str "a")],
       [ColKind.numeric, ColKind.categorical], [1]⟩
      [Row.tup [Value.num 1, Value.str "a", Value.seq [1, 2]]]).1 =
      ⟨[((0, SubKey.none), 0), ((1, SubKey.str "a"), 1)],
       [(0, SubKey.none), (1, SubKey.str "a")],
       [ColKind.numeric, ColKind.categorical], [1]⟩ ∧
    (FlattenerState.sparse_transformS
      ⟨[((0, SubKey.none), 0), ((1, SubKey.str "a"), 1)],
       [(0, SubKey.none), (1, SubKey.str "a")],
       [ColKind.numeric, ColKind.categorical], [1]⟩
      [Row.tup [Value.num 1, Value.str "a", Value.seq [1, 2]]]).1 =
      ⟨[((0, SubKey.none), 0), ((1, SubKey.str "a"), 1)],
       [(0, SubKey.none), (1, SubKey.str "a")],
       [ColKind.numeric, ColKind.categorical], [1]⟩ :=
  @c7_schema_mismatch_rejected
    [Row.tup [Value.num 1, Value.str "a"]]
    [Row.tup [Value.num 1, Value.str "a", Value.seq [1, 2]]]
    ⟨[((0, SubKey.none), 0), ((1, SubKey.str "a"), 1)],
     [(0, SubKey.none), (1, SubKey.str "a")],
     [ColKind.numeric, ColKind.categorical], [1]⟩
    (by rfl)
    ⟨Row.tup [Value.num 1, Value.str "a", Value.seq [1, 2]],
     List.mem_singleton.mpr rfl,
     [Value.num 1, Value.str "a", Value.seq [1, 2]], rfl,
     Or.inl (by decide)⟩

/-- C5: unseen-category tolerance.  For every fitted instance and every
tuple that validates under the frozen schema but carries, at some
position, a string never registered during fit, the dense transform
succeeds and yields 0 in every column registered for that position
(the one-hot columns of other strings seen at that position at fit
time), and the sparse transform succeeds storing no entry in any of
those columns.  Confirmed. -/
theorem c5_unseen_category_zero {X0 : List Row} {st : FlattenerState}
    (hfit : fit X0 = .ok st) {t : Row} {dp : List Value}
    (hval : TupleValidator.validate st.schema t = .ok dp)
    {p : Nat} {s : String}
    (hdp : dp.get? p = Option.some (Value.str s))
    (hunseen : dictLookup st.indexes (p, SubKey.str s) = Option.none) :
    FlattenerState.transform st [t] = .ok ⟨[rowAt st dp], st.indexes.length⟩ ∧
    (∀ c s2, dictLookup st.indexes (p, SubKey.str s2) = Option.some c →
      (rowAt st dp).get? c = Option.some 0) ∧
    (∃ sr, FlattenerState.sparse_transform st [t] = .ok sr ∧
      ∀ c s2, dictLookup st.indexes (p, SubKey.str s2) = Option.some c →
        c ∉ sr.storedCols) := by
  have hI := inv_fit hfit
  have hm := validate_matches hval
  have hnes : ∀ (s2 : String) (c : Nat),
      dictLookup st.indexes (p, SubKey.str s2) = Option.some c → s ≠ s2 := by
    intro s2 c hc he
    rw [← he, hunseen] at hc
    exact absurd hc (by simp)
  refine ⟨?_, ?_, ?_⟩
  · rw [FlattenerState.transform_closed hI, validateList_singleton hval, except_map_ok]
    rfl
  · intro c s2 hc
    have hkey := keys_get?_of_lookup hI hc
    show (List.map (kv dp) (keys st)).get? c = Option.some 0
    rw [List.get?_map, hkey]
    show Option.some (kv dp (p, SubKey.str s2)) = Option.some 0
    have hkv : kv dp (p, SubKey.str s2) = 0 := by
      show (match dp.get? p with
        | Option.some (.str s3) => if s3 = s2 then (1 : ℚ) else (0 : ℚ)
        | _ => (0 : ℚ)) = (0 : ℚ)
      rw [hdp]
      show (if s = s2 then (1 : ℚ) else 0) = 0
      rw [if_neg (hnes s2 c hc)]
    rw [hkv]
  · obtain ⟨ps, hps, hsound⟩ := sparse_step_sound hI hm dp [] rfl
    have hstep : sparse_transform_step st dp = .ok ps := hps
    have hnotin : ∀ c s2, dictLookup st.indexes (p, SubKey.str s2) = Option.some c →
        c ∉ ps.map Prod.fst := by
      intro c s2 hc hmem
      obtain ⟨pr, hpr, hfst⟩ := List.mem_map.mp hmem
      obtain ⟨c0, v⟩ := pr
      have hc0 : c0 = c := hfst
      subst hc0
      obtain ⟨k, hk, hstr⟩ := hsound c0 v hpr
      have hkey := keys_get?_of_lookup hI hc
      have hke : k = (p, SubKey.str s2) := by
        have := hk.symm.trans hkey
        exact Option.some.inj this
      have hdp2 := hstr p s2 hke
      rw [hdp] at hdp2
      have hse : s = s2 := by
        injection Option.some.inj hdp2
      exact hnes s2 c0 hc hse
    have h1 : FlattenerState.sparse_transform st [t] =
        sparse_loop st [] (ps.map Prod.snd) (ps.map Prod.fst)
          ([0] ++ [(ps.map Prod.snd).length]) := by
      show sparse_loop st [t] [] [] [0] = _
      rw [sparse_loop_cons, hval]
      show (match sparse_transform_step st dp with
        | .error e => (Except.error e : Except Err SparseResult)
        | .ok ps2 => sparse_loop st [] (appendPairs [] [] ps2).1 (appendPairs [] [] ps2).2
            ([0] ++ [(appendPairs [] [] ps2).1.length])) = _
      rw [hstep]
      show sparse_loop st [] (appendPairs [] [] ps).1 (appendPairs [] [] ps).2
        ([0] ++ [(appendPairs [] [] ps).1.length]) = _
      rw [appendPairs_closed]
      simp only [List.nil_append]
    by_cases hd : ps.map Prod.snd = []
    · refine ⟨.emptyDense (0, st.indexes.length), ?_, ?_⟩
      · rw [h1, sparse_loop_nil, if_pos hd]
      · intro c s2 _ hmem
        exact absurd hmem (by simp [SparseResult.storedCols])
    · refine ⟨.mat ⟨ps.map Prod.snd, ps.map Prod.fst,
        [0] ++ [(ps.map Prod.snd).length],
        (([0] ++ [(ps.map Prod.snd).length]).length - 1, st.indexes.length)⟩, ?_, ?_⟩
      · rw [h1, sparse_loop_nil, if_neg hd]
      · intro c s2 hc hmem
        exact hnotin c s2 hc hmem

/-- C5 (witness): fit on [("a",)], then transform the valid tuple
("b",) whose categorical value was never seen: the dense transform
succeeds with the all-zero one-hot row, and the sparse transform
stores nothing in the column of "a". -/
theorem c5_witness :
    FlattenerState.transform
      ⟨[((0, SubKey.str "a"), 0)], [(0, SubKey.str "a")], [ColKind.categorical], [0]⟩
      [Row.tup [Value.str "b"]] =
      .ok ⟨[rowAt ⟨[((0, SubKey.str "a"), 0)], [(0, SubKey.str "a")],
                   [ColKind.categorical], [0]⟩ [Value.str "b"]],
           (⟨[((0, SubKey.str "a"), 0)], [(0, SubKey.str "a")],
             [ColKind.categorical], [0]⟩ : FlattenerState).indexes.length⟩ ∧
    (∀ c s2, dictLookup ([((0, SubKey.str "a"), 0)] : List (Key × Nat))
        (0, SubKey.str s2) = Option.some c →
      (rowAt ⟨[((0, SubKey.str "a"), 0)], [(0, SubKey.str "a")],
              [ColKind.categorical], [0]⟩ [Value.str "b"]).get? c = Option.some 0) ∧
    (∃ sr, FlattenerState.sparse_transform
        ⟨[((0, SubKey.str "a"), 0)], [(0, SubKey.str "a")], [ColKind.categorical], [0]⟩
        [Row.tup [Value.str "b"]] = .ok sr ∧
      ∀ c s2, dictLookup ([((0, SubKey.str "a"), 0)] : List (Key × Nat))
          (0, SubKey.str s2) = Option.some c → c ∉ sr.storedCols) :=
  @c5_unseen_category_zero
    [Row.tup [Value.str "a"]]
    ⟨[((0, SubKey.str "a"), 0)], [(0, SubKey.str "a")], [ColKind.categorical], [0]⟩
    (by rfl)
    (Row.tup [Value.str "b"])
    [Value.str "b"]
    (by rfl)
    0 "b"
    (by rfl)
    (by decide)

/-- C10: non-tuple rows are rejected.  A list row — even one whose
length and element types would satisfy the frozen schema — always
fails TupleValidator with a SchemaError; as the first row it fails
_fit_first (Schema of a tuple checks isinstance tuple); every transform
and sparse transform of a dataset containing one fails; fit_transform
and sparse_fit_transform, which validate every row, always fail; and a
fit that succeeds despite a list row in the dataset is possible only
when the vocabulary pass was skipped entirely (no categorical
position), the one case in which fit runs no validation.  Confirmed. -/
theorem c10_non_tuple_rows_rejected :
    (∀ (sch : List ColKind) (es : List Value),
      TupleValidator.validate sch (Row.lst es) =
        .error (.schemaError "Expecting tuple, got list")) ∧
    (∀ (es : List Value),
      fit_first (Row.lst es) = .error (.schemaError "should be instance of tuple")) ∧
    (∀ (X0 X : List Row) (st : FlattenerState) (es : List Value),
      fit X0 = .ok st → Row.lst es ∈ X →
      (∃ m, FlattenerState.transform st X = .error (.schemaError m)) ∧
      (∃ m, FlattenerState.sparse_transform st X = .error (.schemaError m))) ∧
    (∀ (X : List Row) (es : List Value), Row.lst es ∈ X →
      (∃ e, fit_transform X = .error e) ∧ (∃ e, sparse_fit_transform X = .error e)) ∧
    (∀ (X : List Row) (es : List Value) (st : FlattenerState),
      Row.lst es ∈ X → fit X = .ok st → st.str_tuple_indexes = []) := by
  refine ⟨fun sch es => rfl, fun es => rfl, ?_, ?_, ?_⟩
  · intro X0 X st es hfit hmem
    have hI := inv_fit hfit
    obtain ⟨m, hm⟩ := @validateList_err_of_mem st.schema X ⟨Row.lst es, hmem, _, rfl⟩
    refine ⟨⟨m, ?_⟩, ⟨m, ?_⟩⟩
    · rw [FlattenerState.transform_closed hI, hm, except_map_error]
    · show sparse_loop st X [] [] [0] = _
      exact sparse_loop_err_of_validate hI X _ [] [] [0] hm
  · intro X es hmem
    cases X with
    | nil => exact absurd hmem (by simp)
    | cons first rest =>
      cases hf : fit_first first with
      | error e =>
        refine ⟨⟨e, ?_⟩, ⟨e, ?_⟩⟩
        · rw [fit_transform_cons_eq, hf]
        · rw [sparse_fit_transform_cons_eq, hf]
      | ok st0 =>
        have hI0 := inv_fit_first hf
        obtain ⟨m, hm⟩ := @validateList_err_of_mem st0.schema (first :: rest)
          ⟨Row.lst es, hmem, _, rfl⟩
        refine ⟨⟨.schemaError m, ?_⟩, ⟨.schemaError m, ?_⟩⟩
        · rw [fit_transform_cons_eq, hf]
          show ft_loop st0 (first :: rest) [] = _
          rw [ft_sim (first :: rest) st0 [] hI0, fit_loop_closed, hm,
            except_map_error, except_bind_error]
        · rw [sparse_fit_transform_cons_eq, hf]
          show sparse_ft_loop st0 (first :: rest) [] [] [0] = _
          rw [sp_sim (first :: rest) st0 [] [] [0] hI0, fit_loop_closed, hm,
            except_map_error, except_bind_error]
  · intro X es st hmem hfit
    cases X with
    | nil => exact absurd hmem (by simp)
    | cons first rest =>
      rw [fit_cons_eq] at hfit
      cases hf : fit_first first with
      | error e =>
        rw [hf] at hfit
        exact absurd hfit (by simp)
      | ok st0 =>
        rw [hf] at hfit
        have h2 : (if st0.str_tuple_indexes ≠ [] then fit_loop st0 (first :: rest)
          else Except.ok st0) = Except.ok st := hfit
        by_cases hsti : st0.str_tuple_indexes ≠ []
        · rw [if_pos hsti, fit_loop_closed] at h2
          obtain ⟨m, hm⟩ := @validateList_err_of_mem st0.schema (first :: rest)
            ⟨Row.lst es, hmem, _, rfl⟩
          rw [hm, except_map_error] at h2
          exact absurd h2 (by simp)
        · rw [if_neg hsti] at h2
          injection h2 with h2
          rw [← h2]
          exact not_ne_iff.mp hsti

/-- C10 (witness): transforming a dataset whose second row is the list
["a"] — length and element type matching the frozen one-categorical
schema — fails with a SchemaError in both paths. -/
theorem c10_witness :
    (∃ m, FlattenerState.transform
      ⟨[((0, SubKey.str "a"), 0)], [(0, SubKey.str "a")], [ColKind.categorical], [0]⟩
      [Row.tup [Value.str "a"], Row.lst [Value.str "a"]] =
        .error (.schemaError m)) ∧
    (∃ m, FlattenerState.sparse_transform
      ⟨[((0, SubKey.str "a"), 0)], [(0, SubKey.str "a")], [ColKind.categorical], [0]⟩
      [Row.tup [Value.str "a"], Row.lst [Value.str "a"]] =
        .error (.schemaError m)) :=
  c10_non_tuple_rows_rejected.2.2.1
    [Row.tup [Value.str "a"]]
    [Row.tup [Value.str "a"], Row.lst [Value.str "a"]]
    ⟨[((0, SubKey.str "a"), 0)], [(0, SubKey.str "a")], [ColKind.categorical], [0]⟩
    [Value.str "a"]
    (by rfl)
    (by simp)

/-- C9: the column index map after any successful fit assigns exactly
the indices 0..N-1 in insertion order (first conjunct); the columns of
the first tuple (numeric and vector positions; vector blocks are
contiguous ascending, third conjunct) form a prefix of the column
order, every later column being a categorical (position, string) key
(second conjunct); the categorical positions scanned are exactly the
Categorical schema positions left to right (fourth conjunct); the
categorical columns appear in first-seen order over the validated
dataset, positions left to right within a tuple, tuples in dataset
order (fifth conjunct); and one vocabulary growth step preserves the
index assignment and extends the column order in exactly that
first-seen order (sixth conjunct).  Confirmed. -/
theorem c9_column_index_map_invariants {X : List Row} {st : FlattenerState}
    (hfit : fit X = .ok st) :
    st.indexes.map Prod.snd = List.range st.indexes.length ∧
    (∃ tail, st.reverse = firstTupleKeys st.schema 0 ++ tail ∧
      ∀ k ∈ tail, ∃ i s, k = (i, SubKey.str s)) ∧
    (∀ i n, st.schema.get? i = Option.some (ColKind.fixedVector n) →
      ∃ j, ∀ t, t < n → dictLookup st.indexes (i, SubKey.idx t) = Option.some (j + t)) ∧
    st.str_tuple_indexes = catPositions st.schema 0 ∧
    (∀ dps, validateList st.schema X = .ok dps →
      st.reverse = firstTupleKeys st.schema 0 ++
        seenOrder ((dps.map (obsKeys st.str_tuple_indexes)).flatten)) ∧
    (∀ s dp, Inv s → dpMatches s.schema dp →
      (fit_step s dp).indexes.map Prod.snd = List.range (fit_step s dp).indexes.length ∧
      (fit_step s dp).reverse = (obsKeys s.str_tuple_indexes dp).foldl addNew s.reverse) := by
  have hI := inv_fit hfit
  cases X with
  | nil => exact absurd hfit (by simp [fit])
  | cons first rest =>
    rw [fit_cons_eq] at hfit
    cases hf : fit_first first with
    | error e =>
      rw [hf] at hfit
      exact absurd hfit (by simp)
    | ok st0 =>
      rw [hf] at hfit
      have hI0 : Inv st0 := inv_fit_first hf
      obtain ⟨elems, hfirst, hne0, hchk, hst0⟩ := fit_first_ok hf
      have hsch0 : st0.schema = elems.map classify := by rw [hst0]
      have hrev0 : st0.reverse = firstTupleKeys (elems.map classify) 0 := by rw [hst0]
      have hsti0 : st0.str_tuple_indexes = catPositions (elems.map classify) 0 := by
        rw [hst0]
      have h2 : (if st0.str_tuple_indexes ≠ [] then fit_loop st0 (first :: rest)
        else Except.ok st0) = Except.ok st := hfit
      have hpack : st.schema = st0.schema ∧
          st.str_tuple_indexes = st0.str_tuple_indexes ∧
          (∀ dps, validateList st0.schema (first :: rest) = .ok dps →
            st.reverse =
              ((dps.map (obsKeys st0.str_tuple_indexes)).flatten).foldl addNew
                st0.reverse) ∧
          (∃ dps0 : List (List Value), st.reverse =
              ((dps0.map (obsKeys st0.str_tuple_indexes)).flatten).foldl addNew
                st0.reverse) := by
        by_cases hsti : st0.str_tuple_indexes ≠ []
        · rw [if_pos hsti, fit_loop_closed] at h2
          cases hvl : validateList st0.schema (first :: rest) with
          | error e =>
            rw [hvl] at h2
            exact absurd h2 (by simp [except_map_error])
          | ok dps2 =>
            rw [hvl, except_map_ok] at h2
            injection h2 with h2
            refine ⟨by rw [← h2, foldl_fit_step_schema],
              by rw [← h2, foldl_fit_step_sti], ?_, ⟨dps2, ?_⟩⟩
            · intro dps hdps
              have h3 : dps2 = dps := Except.ok.inj hdps
              subst h3
              rw [← h2]
              exact foldl_fit_step_reverse dps2 st0 hI0 (validateList_matches hvl)
            · rw [← h2]
              exact foldl_fit_step_reverse dps2 st0 hI0 (validateList_matches hvl)
        · rw [if_neg hsti] at h2
          injection h2 with h2
          subst h2
          have hstieq : st0.str_tuple_indexes = [] := not_ne_iff.mp hsti
          refine ⟨rfl, rfl, ?_, ⟨[], ?_⟩⟩
          · intro dps _
            rw [hstieq, flatten_obsKeys_nil]
            rfl
          · rw [hstieq, flatten_obsKeys_nil]
            rfl
      obtain ⟨hsch, hstisame, hfold, dps0, hrevfold⟩ := hpack
      have hshape0 : ∀ (dps : List (List Value)) (k : Key),
          k ∈ (dps.map (obsKeys st0.str_tuple_indexes)).flatten →
            ∃ i s, k = (i, SubKey.str s) := by
        intro dps k hk
        obtain ⟨l, hl, hkl⟩ := List.mem_flatten.mp hk
        obtain ⟨dp, _, hdp⟩ := List.mem_map.mp hl
        rw [← hdp] at hkl
        obtain ⟨i, s, hks, _⟩ := obsKeys_shape hkl
        exact ⟨i, s, hks⟩
      have hsplit : ∀ (fl : List Key), (∀ k ∈ fl, ∃ i s, k = (i, SubKey.str s)) →
          fl.foldl addNew st0.reverse =
            firstTupleKeys (elems.map classify) 0 ++ seenOrder fl := by
        intro fl hshape
        have hdisj : ∀ k ∈ fl, k ∉ firstTupleKeys (elems.map classify) 0 := by
          intro k hk hmem
          obtain ⟨i, s, hks⟩ := hshape k hk
          subst hks
          exact firstTupleKeys_str_mem (elems.map classify) 0 i s hmem
        rw [hrev0]
        rw [show firstTupleKeys (elems.map classify) 0 =
          firstTupleKeys (elems.map classify) 0 ++ [] from (List.append_nil _).symm]
        rw [foldl_addNew_split fl _ [] hdisj, List.append_nil]
        rfl
      refine ⟨inv_snd_range hI, ?_, hI.vecKey, ?_, ?_, ?_⟩
      · refine ⟨seenOrder ((dps0.map (obsKeys st0.str_tuple_indexes)).flatten), ?_, ?_⟩
        · rw [hsch, hsch0, hrevfold]
          exact hsplit _ (hshape0 dps0)
        · intro k hk
          rcases mem_foldl_addNew _ [] k hk with hm | hm
          · exact absurd hm (by simp)
          · exact hshape0 dps0 k hm
      · rw [hstisame, hsti0, hsch, hsch0]
      · intro dps hdps
        rw [hsch] at hdps
        rw [hsch, hsch0, hstisame, hfold dps hdps]
        exact hsplit _ (hshape0 dps)
      · intro s dp hIs hms
        exact ⟨inv_snd_range (inv_fit_step hIs), fit_step_reverse hIs hms⟩

/-- C9 (witness): fitting on [(1, "a"), (2, "b")] satisfies every
conjunct of the column index map invariant at a concrete state. -/
theorem c9_witness :
    (⟨[((0, SubKey.none), 0), ((1, SubKey.str "a"), 1), ((1, SubKey.str "b"), 2)],
      [(0, SubKey.none), (1, SubKey.str "a"), (1, SubKey.str "b")],
      [ColKind.numeric, ColKind.categorical], [1]⟩ : FlattenerState).indexes.map Prod.snd =
      List.range (⟨[((0, SubKey.none), 0), ((1, SubKey.str "a"), 1), ((1, SubKey.str "b"), 2)],
        [(0, SubKey.none), (1, SubKey.str "a"), (1, SubKey.str "b")],
        [ColKind.numeric, ColKind.categorical], [1]⟩ : FlattenerState).indexes.length ∧
    (∃ tail, (⟨[((0, SubKey.none), 0), ((1, SubKey.str "a"), 1), ((1, SubKey.str "b"), 2)],
        [(0, SubKey.none), (1, SubKey.str "a"), (1, SubKey.str "b")],
        [ColKind.numeric, ColKind.categorical], [1]⟩ : FlattenerState).reverse =
        firstTupleKeys [ColKind.numeric, ColKind.categorical] 0 ++ tail ∧
      ∀ k ∈ tail, ∃ i s, k = (i, SubKey.str s)) ∧
    (∀ i n, ([ColKind.numeric, ColKind.categorical] : List ColKind).get? i =
        Option.some (ColKind.fixedVector n) →
      ∃ j, ∀ t, t < n →
        dictLookup [((0, SubKey.none), 0), ((1, SubKey.str "a"), 1), ((1, SubKey.str "b"), 2)]
          (i, SubKey.idx t) = Option.some (j + t)) ∧
    ([1] : List Nat) = catPositions [ColKind.numeric, ColKind.categorical] 0 ∧
    (∀ dps, validateList [ColKind.numeric, ColKind.categorical]
        [Row.tup [Value.num 1, Value.str "a"], Row.tup [Value.num 2, Value.str "b"]] =
        .ok dps →
      ([(0, SubKey.none), (1, SubKey.str "a"), (1, SubKey.str "b")] : List Key) =
        firstTupleKeys [ColKind.numeric, ColKind.categorical] 0 ++
          seenOrder ((dps.map (obsKeys [1])).flatten)) ∧
    (∀ s dp, Inv s → dpMatches s.schema dp →
      (fit_step s dp).indexes.map Prod.snd = List.range (fit_step s dp).indexes.length ∧
      (fit_step s dp).reverse = (obsKeys s.str_tuple_indexes dp).foldl addNew s.reverse) :=
  @c9_column_index_map_invariants
    [Row.tup [Value.num 1, Value.str "a"], Row.tup [Value.num 2, Value.str "b"]]
    ⟨[((0, SubKey.none), 0), ((1, SubKey.str "a"), 1), ((1, SubKey.str "b"), 2)],
      [(0, SubKey.none), (1, SubKey.str "a"), (1, SubKey.str "b")],
      [ColKind.numeric, ColKind.categorical], [1]⟩
    (by rfl)

end FF
